import Mathlib

/-!
# Simple Monte Carlo option pricer (`src/main.cpp`)

A shallow embedding of `random_nd` and `SimpleMonteCarlo`, followed by the
properties of the pricer that the specification states.

Numeric model.  A `double` is an element of a linearly ordered field `α`
(the theorems take `α = ℝ`): arithmetic is exact, there is no rounding and no
overflow to infinity.  The only special value that exact arithmetic can still
reach is the not-a-number of `0.0 / 0`, kept as `Dbl.nan`.  The `<cmath>`
functions `exp` and `sqrt` are library code and are parameters of every
definition; the theorems instantiate them with `Real.exp` and `Real.sqrt`.
`fmax` is `max`.

Integer model.  A `size_t` value is a natural number (below `2^64`) and its
conversion to `double` is exact.  An `int` has 32 bits: the conversions of
`Expiry` and of `Expiry - 2` to `int` (lines 48 and 57) are `toInt`, the value
modulo `2^32` taken in `-2^31 .. 2^31 - 1`; the difference `Expiry - 2` itself
is taken modulo `2^64` (`sizeSub`); and an increment of the `int` loop
variable past `2147483647` is undefined behaviour.  An array of negative size,
an index outside the array and a read of an entry that was never written are
undefined behaviour as well.

Generator model.  `std::mt19937` seeded with `0` and the
`std::normal_distribution` object are static: the sequence of values that the
successive calls of `random_nd` return during one run of the process is one
fixed sequence `draws : ℕ → α`, and the state of the generator is the index
`pos` of the next value to be handed out.
-/

namespace DerivativesPricing

/-- Value of a `double` in exact arithmetic: a number, or the not-a-number
that the division `0.0 / 0` produces. -/
inductive Dbl (α : Type) where
  | num (x : α)
  | nan

/-- Way in which a call of a C++ function ends: it returns a value, it leaves
through an exception (an explicit failure), or it runs into undefined
behaviour (here: a path buffer of negative size, an access outside the path
buffer, a read of an entry that was never written, or an overflow of the `int`
loop variable). -/
inductive Outcome (β : Type) where
  | returned (b : β)
  | thrown
  | undefinedBehaviour

section Memory

variable {α : Type}

/-- Source lines 5-11: `random_nd` hands out the next value of the static
generator and advances it. -/
def random_nd (draws : ℕ → α) (pos : ℕ) : α × ℕ :=
  (draws pos, pos + 1)

/-- Read of `spotPath[i]`: `none` when `i` is outside the buffer or the entry
has not been written yet. -/
def readAt (spotPath : List (Option α)) (i : ℕ) : Option α :=
  match spotPath[i]? with
  | some (some x) => some x
  | _ => none

/-- Write `spotPath[i] = v`: `none` when `i` is outside the buffer. -/
def writeAt (spotPath : List (Option α)) (i : ℕ) (v : α) : Option (List (Option α)) :=
  if i < spotPath.length then some (spotPath.set i (some v)) else none

/-- Conversion of a `size_t` value to `int` (32 bits, two's complement), as
done by `static_cast<int>(Expiry)` on line 48 and by the initialisation
`int j = Expiry - 2` on line 57: the value modulo `2^32`, taken in the range
`-2147483648 .. 2147483647`. -/
def toInt (n : ℕ) : ℤ :=
  if n % 4294967296 < 2147483648 then ((n % 4294967296 : ℕ) : ℤ)
  else ((n % 4294967296 : ℕ) : ℤ) - 4294967296

/-- Subtraction `a - b` of two `size_t` values (64 bits): the difference
modulo `2^64`. -/
def sizeSub (a b : ℕ) : ℕ :=
  if b ≤ a then a - b else a + 18446744073709551616 - b

end Memory

section Code

variable {α : Type} [LinearOrderedField α]

/-- Source line 38: `double variance = Vol * Vol * Expiry`. -/
def variance (Vol : α) (Expiry : ℕ) : α :=
  Vol * Vol * (Expiry : α)

/-- Source line 39: `double rootVariance = sqrt(variance)`. -/
def rootVariance (sqrt : α → α) (Vol : α) (Expiry : ℕ) : α :=
  sqrt (variance Vol Expiry)

/-- Source line 40: `double itoCorrelation = -0.5 * variance`. -/
def itoCorrelation (Vol : α) (Expiry : ℕ) : α :=
  -0.5 * variance Vol Expiry

/-- Source line 42:
`double movedSpot = Spot * exp((Return + r) * Expiry + itoCorrelation)`. -/
def movedSpot (exp : α → α) (Expiry Spot : ℕ) (Return Vol r : α) : α :=
  (Spot : α) * exp ((Return + r) * (Expiry : α) + itoCorrelation Vol Expiry)

/-- Source lines 54-55, 58-59 and 68-69: the signed distance to the strike,
`Call ? s - Strike : Strike - s`, floored at zero by `p > 0 ? p : 0`. -/
def clampedPayoff (Call : Bool) (Strike : ℕ) (s : α) : α :=
  let p := if Call then s - (Strike : α) else (Strike : α) - s
  if p > 0 then p else 0

/-- Source lines 50-52: `for (int j = 1; j < Expiry; ++j)
spotPath[j] = spotPath[j - 1] * exp(rootVariance * random_nd());`, entered
with the `int` loop variable at `j`.  The source enters the loop at `j = 1` and
only increments `j`, so `j` is positive: its conversion to `size_t` for the
comparison `j < Expiry` is `j` itself and `j - 1` is never negative.  The
increment `++j` at `j = 2147483647` overflows the `int`. -/
def pathLoop (exp : α → α) (rootVar : α) (draws : ℕ → α) (Expiry : ℕ)
    (j : ℕ) (spotPath : List (Option α)) (pos : ℕ) : Option (List (Option α) × ℕ) :=
  if j < Expiry then
    match readAt spotPath (j - 1) with
    | none => none
    | some previous =>
      match writeAt spotPath j (previous * exp (rootVar * (random_nd draws pos).1)) with
      | none => none
      | some spotPath1 =>
        if j = 2147483647 then none
        else pathLoop exp rootVar draws Expiry (j + 1) spotPath1 (random_nd draws pos).2
  else some (spotPath, pos)
termination_by Expiry - j

/-- Source lines 48-52: the uninitialised buffer
`double spotPath[static_cast<int>(Expiry)]`, the write `spotPath[0] = movedSpot`
and the path loop.  The buffer has `toInt Expiry` cells; a negative size is
undefined behaviour. -/
def generatePath (exp : α → α) (moved rootVar : α) (draws : ℕ → α) (Expiry : ℕ)
    (pos : ℕ) : Option (List (Option α) × ℕ) :=
  if toInt Expiry < 0 then none
  else
    match writeAt (List.replicate (toInt Expiry).toNat none) 0 moved with
    | none => none
    | some spotPath => pathLoop exp rootVar draws Expiry 1 spotPath pos

/-- Source lines 57-61: `for (int j = Expiry - 2; j >= 0; --j)` with body
`thisPayoff = fmax(thisPayoff, earlyExercise * exp(-r * (Expiry - j)))`,
entered with the loop variable at `j`. -/
def exerciseLoop (exp : α → α) (Call : Bool) (Expiry Strike : ℕ) (r : α)
    (spotPath : List (Option α)) (j : ℤ) (thisPayoff : α) : Option α :=
  if 0 ≤ j then
    match readAt spotPath j.toNat with
    | none => none
    | some s =>
      exerciseLoop exp Call Expiry Strike r spotPath (j - 1)
        (max thisPayoff
          (clampedPayoff Call Strike s * exp (-r * ((Expiry - j.toNat : ℕ) : α))))
  else some thisPayoff
termination_by (j + 1).toNat
decreasing_by omega

/-- Source lines 54-61: terminal payoff read from `spotPath[Expiry - 1]`, then
the backward scan `for (int j = Expiry - 2; ...)`.  `Expiry - 1` is computed in
`size_t`: for `Expiry = 0` it wraps around to the largest index, which is
outside every buffer.  `Expiry - 2` is computed in `size_t` as well and then
converted to `int`: this gives the number `Expiry - 2` itself for
`Expiry ≤ 2147483649` (so `-1` at `Expiry = 1`) and a negative number for
`Expiry` in `2147483650 .. 4294967297`. -/
def americanPayoff (exp : α → α) (Call : Bool) (Expiry Strike : ℕ) (r : α)
    (spotPath : List (Option α)) : Option α :=
  if Expiry = 0 then none
  else
    match readAt spotPath (Expiry - 1) with
    | none => none
    | some last =>
      exerciseLoop exp Call Expiry Strike r spotPath (toInt (sizeSub Expiry 2))
        (clampedPayoff Call Strike last)

/-- Source lines 47-64: the American loop over the paths, entered with the
loop variable at `i`; each pass builds one path, evaluates it and adds the
payoff to `runningSum`. -/
def americanLoop (exp : α → α) (Call : Bool) (Expiry Strike : ℕ) (r moved rootVar : α)
    (draws : ℕ → α) (NumberOfPath : ℕ) (i : ℕ) (runningSum : α) (pos : ℕ) :
    Option (α × ℕ) :=
  if i < NumberOfPath then
    match generatePath exp moved rootVar draws Expiry pos with
    | none => none
    | some (spotPath, pos1) =>
      match americanPayoff exp Call Expiry Strike r spotPath with
      | none => none
      | some thisPayoff =>
        americanLoop exp Call Expiry Strike r moved rootVar draws NumberOfPath (i + 1)
          (runningSum + thisPayoff) pos1
  else some (runningSum, pos)
termination_by NumberOfPath - i

/-- Source lines 66-71: the European loop over the paths, entered with the
loop variable at `i`. -/
def europeanLoop (exp : α → α) (Call : Bool) (Strike : ℕ) (moved rootVar : α)
    (draws : ℕ → α) (NumberOfPath : ℕ) (i : ℕ) (runningSum : α) (pos : ℕ) : α × ℕ :=
  if i < NumberOfPath then
    europeanLoop exp Call Strike moved rootVar draws NumberOfPath (i + 1)
      (runningSum
        + clampedPayoff Call Strike (moved * exp (rootVar * (random_nd draws pos).1)))
      (random_nd draws pos).2
  else (runningSum, pos)
termination_by NumberOfPath - i

/-- Source line 74: `double mean = runningSum / NumberOfPath`.  With
`NumberOfPath = 0` no path was simulated, `runningSum` is still `0` and the
quotient `0.0 / 0` is not-a-number. -/
def meanOf (runningSum : α) (NumberOfPath : ℕ) : Dbl α :=
  if NumberOfPath = 0 then Dbl.nan else Dbl.num (runningSum / (NumberOfPath : α))

/-- Source line 75: `mean *= exp(-r * Expiry)`; not-a-number stays so. -/
def discounted (exp : α → α) (r : α) (Expiry : ℕ) : Dbl α → Dbl α
  | Dbl.num mean => Dbl.num (mean * exp (-r * (Expiry : α)))
  | Dbl.nan => Dbl.nan

/-- Source lines 28-77: `SimpleMonteCarlo<Call, American>`, started with the
generator at index `pos`.  It returns the price together with the index at
which the generator is left. -/
def SimpleMonteCarlo (exp sqrt : α → α) (Call American : Bool)
    (Expiry Strike Spot : ℕ) (Return Vol r : α) (NumberOfPath : ℕ)
    (draws : ℕ → α) (pos : ℕ) : Outcome (Dbl α × ℕ) :=
  let rootVar := rootVariance sqrt Vol Expiry
  let moved := movedSpot exp Expiry Spot Return Vol r
  let simulated : Option (α × ℕ) :=
    if American then
      americanLoop exp Call Expiry Strike r moved rootVar draws NumberOfPath 0 0 pos
    else
      some (europeanLoop exp Call Strike moved rootVar draws NumberOfPath 0 0 pos)
  match simulated with
  | none => Outcome.undefinedBehaviour
  | some (runningSum, pos1) =>
    Outcome.returned (discounted exp r Expiry (meanOf runningSum NumberOfPath), pos1)

end Code

/-! ## Reference definitions, written from the specification -/

section Reference

variable {α : Type} [LinearOrderedField α]

/-- Terminal spot of the specification for the draw `z`:
`movedSpot * exp(rootVariance * z)` with `rootVariance = sqrt(Vol^2 * Expiry)`
and `movedSpot = Spot * exp((Return + r) * Expiry - 0.5 * Vol^2 * Expiry)`. -/
def terminalSpotRef (exp sqrt : α → α) (Expiry Spot : ℕ) (Return Vol r z : α) : α :=
  (Spot : α) * exp ((Return + r) * (Expiry : α) - 0.5 * Vol ^ 2 * (Expiry : α))
    * exp (sqrt (Vol ^ 2 * (Expiry : α)) * z)

/-- European payoff of the specification: `max(0, s - Strike)` for a call and
`max(0, Strike - s)` for a put. -/
def europeanPayoffRef (Call : Bool) (Strike : ℕ) (s : α) : α :=
  if Call then max 0 (s - (Strike : α)) else max 0 ((Strike : α) - s)

/-- European estimate of the specification for the draws `z 0, ..., z (N - 1)`:
`exp(-r * Expiry) * (1 / N) * sum_i payoff(s_i)`. -/
def europeanEstimateRef (exp sqrt : α → α) (Call : Bool) (Expiry Strike Spot : ℕ)
    (Return Vol r : α) (N : ℕ) (z : ℕ → α) : α :=
  exp (-r * (Expiry : α)) * (1 / (N : α))
    * ∑ i in Finset.range N,
        europeanPayoffRef Call Strike (terminalSpotRef exp sqrt Expiry Spot Return Vol r (z i))

/-- Simulated path of the specification: step `0` equals `moved`, and step
`j + 1` equals step `j` times `exp(rootVar * z j)`, where `z 0, z 1, ...` are
the draws taken for this path, in order. -/
def pathSpotRef (exp : α → α) (moved rootVar : α) (z : ℕ → α) : ℕ → α
  | 0 => moved
  | j + 1 => pathSpotRef exp moved rootVar z j * exp (rootVar * z j)

/-- Exercise values of the specification for one path: the terminal payoff at
step `Expiry - 1` and, for every step `j` in `0 .. Expiry - 2`, the intrinsic
value at step `j` discounted by `exp(-r * (Expiry - j))`. -/
def exerciseCandidates (exp : α → α) (Call : Bool) (Expiry Strike : ℕ) (r : α)
    (spot : ℕ → α) : Finset α :=
  insert (europeanPayoffRef Call Strike (spot (Expiry - 1)))
    ((Finset.range (Expiry - 1)).image fun (j : ℕ) =>
      exp (-r * ((Expiry : α) - (j : α))) * europeanPayoffRef Call Strike (spot j))

/-- American per-path payoff of the specification: the maximum of the exercise
values of the path. -/
def americanPayoffRef (exp : α → α) (Call : Bool) (Expiry Strike : ℕ) (r : α)
    (spot : ℕ → α) : α :=
  (exerciseCandidates exp Call Expiry Strike r spot).max' (Finset.insert_nonempty _ _)

/-- American estimate of the specification: `exp(-r * Expiry)` times the mean
over the `N` paths of the per-path payoff; `z i` lists the draws of path `i`. -/
def americanEstimateRef (exp : α → α) (Call : Bool) (Expiry Strike : ℕ)
    (r moved rootVar : α) (N : ℕ) (z : ℕ → ℕ → α) : α :=
  exp (-r * (Expiry : α)) * ((1 / (N : α))
    * ∑ i in Finset.range N,
        americanPayoffRef exp Call Expiry Strike r (pathSpotRef exp moved rootVar (z i)))

/-- Number of draws that one pricing call takes according to the
specification: one per path in European mode, `Expiry - 1` per path in American
mode. -/
def drawsTaken (American : Bool) (Expiry N : ℕ) : ℕ :=
  if American then N * (Expiry - 1) else N

end Reference

/-! ## The European loop -/

section EuropeanLemmas

variable {α : Type} [LinearOrderedField α]

theorem clampedPayoff_eq_ref (Call : Bool) (Strike : ℕ) (s : α) :
    clampedPayoff Call Strike s = europeanPayoffRef Call Strike s := by
  unfold clampedPayoff europeanPayoffRef
  cases Call
  · simp only [Bool.false_eq_true, if_false]
    split_ifs with h
    · exact (max_eq_right h.le).symm
    · exact (max_eq_left (not_lt.mp h)).symm
  · simp only [if_true]
    split_ifs with h
    · exact (max_eq_right h.le).symm
    · exact (max_eq_left (not_lt.mp h)).symm

theorem europeanLoop_eq (exp : α → α) (Call : Bool) (Strike : ℕ) (moved rootVar : α)
    (draws : ℕ → α) (N : ℕ) :
    ∀ (d i : ℕ) (runningSum : α) (pos : ℕ), N - i = d →
      europeanLoop exp Call Strike moved rootVar draws N i runningSum pos
        = (runningSum + ∑ k in Finset.range d,
              clampedPayoff Call Strike (moved * exp (rootVar * draws (pos + k))),
            pos + d) := by
  intro d
  induction d with
  | zero =>
    intro i runningSum pos h
    rw [europeanLoop, if_neg (by omega)]
    simp
  | succ d ih =>
    intro i runningSum pos h
    rw [europeanLoop, if_pos (by omega), ih (i + 1) _ _ (by omega)]
    simp only [random_nd, Finset.sum_range_succ', add_zero, Prod.mk.injEq]
    refine ⟨?_, by omega⟩
    rw [add_assoc, add_comm (clampedPayoff _ _ _)]
    refine congrArg _ (congrArg (· + _) (Finset.sum_congr rfl ?_))
    intro k _
    rw [show pos + 1 + k = pos + (k + 1) by omega]

end EuropeanLemmas

/-! ## The American path buffer and the backward scan -/

section MemoryLemmas

variable {α : Type}

theorem readAt_of_getElem? {spotPath : List (Option α)} {i : ℕ} {x : α}
    (h : spotPath[i]? = some (some x)) : readAt spotPath i = some x := by
  unfold readAt
  rw [h]

theorem writeAt_of_lt {spotPath : List (Option α)} {i : ℕ} (v : α)
    (h : i < spotPath.length) : writeAt spotPath i v = some (spotPath.set i (some v)) := by
  unfold writeAt
  rw [if_pos h]

theorem toInt_eq_self (n : ℕ) (h : n ≤ 2147483647) : toInt n = (n : ℤ) := by
  unfold toInt
  split_ifs <;> omega

theorem toInt_le (n : ℕ) : toInt n ≤ 2147483647 := by
  unfold toInt
  split_ifs <;> omega

theorem toInt_scan_start (Expiry : ℕ) (hE : 1 ≤ Expiry) (hI : Expiry ≤ 2147483647) :
    toInt (sizeSub Expiry 2) = (Expiry : ℤ) - 2 := by
  unfold toInt sizeSub
  split_ifs <;> omega

theorem toInt_scan_start_neg (Expiry : ℕ) (h1 : 2147483650 ≤ Expiry)
    (h2 : Expiry ≤ 4294967297) : toInt (sizeSub Expiry 2) < 0 := by
  unfold toInt sizeSub
  split_ifs <;> omega

end MemoryLemmas

section AmericanLemmas

variable {α : Type} [LinearOrderedField α]

theorem pathLoop_spec (exp : α → α) (moved rootVar : α) (draws : ℕ → α) (Expiry start : ℕ)
    (hI : Expiry ≤ 2147483647) :
    ∀ (d j : ℕ) (spotPath : List (Option α)), Expiry - j = d → 1 ≤ j → j ≤ Expiry →
      spotPath.length = Expiry →
      (∀ i, i < j → spotPath[i]? =
        some (some (pathSpotRef exp moved rootVar (fun k => draws (start + k)) i))) →
      ∃ filled, pathLoop exp rootVar draws Expiry j spotPath (start + (j - 1))
          = some (filled, start + (Expiry - 1))
        ∧ filled.length = Expiry
        ∧ ∀ i, i < Expiry → filled[i]? =
            some (some (pathSpotRef exp moved rootVar (fun k => draws (start + k)) i)) := by
  intro d
  induction d with
  | zero =>
    intro j spotPath hd h1 hj hlen hinv
    have hjE : j = Expiry := by omega
    subst hjE
    refine ⟨spotPath, ?_, hlen, hinv⟩
    rw [pathLoop, if_neg (lt_irrefl _)]
  | succ d ih =>
    intro j spotPath hd h1 hj hlen hinv
    have hlt : j < Expiry := by omega
    obtain ⟨m, rfl⟩ : ∃ m, j = m + 1 := ⟨j - 1, by omega⟩
    have hread := readAt_of_getElem? (hinv m (Nat.lt_succ_self m))
    have hwrite := writeAt_of_lt
      (pathSpotRef exp moved rootVar (fun k => draws (start + k)) m
        * exp (rootVar * draws (start + m))) (hlen.symm ▸ hlt)
    obtain ⟨filled, hrun, hflen, hfill⟩ := ih (m + 1 + 1)
      (spotPath.set (m + 1)
        (some (pathSpotRef exp moved rootVar (fun k => draws (start + k)) m
          * exp (rootVar * draws (start + m)))))
      (by omega) (by omega) (by omega) (by rw [List.length_set]; exact hlen)
      (by
        intro i hi
        by_cases hij : i = m + 1
        · subst hij
          rw [List.getElem?_set_self (hlen.symm ▸ hlt)]
          rfl
        · rw [List.getElem?_set_ne (Ne.symm hij)]
          exact hinv i (by omega))
    refine ⟨filled, ?_, hflen, hfill⟩
    rw [pathLoop, if_pos hlt]
    simp only [Nat.add_sub_cancel, random_nd] at hrun hread hwrite ⊢
    rw [hread]
    simp only []
    rw [hwrite]
    simp only []
    rw [if_neg (by omega)]
    exact hrun

theorem generatePath_spec (exp : α → α) (moved rootVar : α) (draws : ℕ → α)
    (Expiry start : ℕ) (hE : 1 ≤ Expiry) (hI : Expiry ≤ 2147483647) :
    generatePath exp moved rootVar draws Expiry start
      = some ((List.range Expiry).map fun j =>
            some (pathSpotRef exp moved rootVar (fun k => draws (start + k)) j),
          start + (Expiry - 1)) := by
  have hcells : toInt Expiry = (Expiry : ℤ) := toInt_eq_self Expiry hI
  unfold generatePath
  rw [hcells, if_neg (by omega), Int.toNat_ofNat,
    writeAt_of_lt moved (by rw [List.length_replicate]; exact hE)]
  simp only []
  obtain ⟨filled, hrun, hflen, hfill⟩ := pathLoop_spec exp moved rootVar draws Expiry start hI
    (Expiry - 1) 1 ((List.replicate Expiry none).set 0 (some moved)) rfl le_rfl hE
    (by rw [List.length_set, List.length_replicate])
    (by
      intro i hi
      have hi0 : i = 0 := by omega
      subst hi0
      rw [List.getElem?_set_self (by rw [List.length_replicate]; exact hE)]
      rfl)
  rw [Nat.sub_self, Nat.add_zero] at hrun
  rw [hrun]
  have hEq : filled = (List.range Expiry).map fun j =>
      some (pathSpotRef exp moved rootVar (fun k => draws (start + k)) j) := by
    apply List.ext_getElem?
    intro i
    by_cases hi : i < Expiry
    · rw [hfill i hi, List.getElem?_map, List.getElem?_range hi]
      rfl
    · rw [List.getElem?_eq_none (by omega), List.getElem?_eq_none (by simp; omega)]
  rw [hEq]

theorem exerciseLoop_spec (exp : α → α) (Call : Bool) (Expiry Strike : ℕ) (r : α)
    (spot : ℕ → α) (spotPath : List (Option α))
    (hbuf : ∀ i, i < Expiry → spotPath[i]? = some (some (spot i))) :
    ∀ (n : ℕ), n + 1 ≤ Expiry → ∀ (thisPayoff : α),
      ∃ q, exerciseLoop exp Call Expiry Strike r spotPath ((n : ℤ) - 1) thisPayoff = some q
        ∧ q ∈ insert thisPayoff ((Finset.range n).image fun (j : ℕ) =>
            exp (-r * ((Expiry : α) - (j : α))) * europeanPayoffRef Call Strike (spot j))
        ∧ ∀ c ∈ insert thisPayoff ((Finset.range n).image fun (j : ℕ) =>
            exp (-r * ((Expiry : α) - (j : α))) * europeanPayoffRef Call Strike (spot j)),
            c ≤ q := by
  intro n
  induction n with
  | zero =>
    intro _ thisPayoff
    refine ⟨thisPayoff, ?_, by simp, by simp⟩
    rw [exerciseLoop, if_neg (by omega)]
  | succ n ih =>
    intro hn thisPayoff
    have h0 : (0 : ℤ) ≤ ((n + 1 : ℕ) : ℤ) - 1 := by omega
    have hidx : (((n + 1 : ℕ) : ℤ) - 1).toNat = n := by omega
    have hnext : ((n + 1 : ℕ) : ℤ) - 1 - 1 = (n : ℤ) - 1 := by omega
    have hcast : (((Expiry - n : ℕ) : ℕ) : α) = (Expiry : α) - (n : α) :=
      Nat.cast_sub (by omega)
    obtain ⟨q, hq, hmem, hub⟩ := ih (by omega)
      (max thisPayoff
        (exp (-r * ((Expiry : α) - (n : α))) * europeanPayoffRef Call Strike (spot n)))
    refine ⟨q, ?_, ?_, ?_⟩
    · rw [exerciseLoop, if_pos h0, hidx, hnext, readAt_of_getElem? (hbuf n (by omega))]
      simp only []
      rw [clampedPayoff_eq_ref, hcast, mul_comm (europeanPayoffRef Call Strike (spot n))]
      exact hq
    · simp only [Finset.mem_insert, Finset.mem_image, Finset.mem_range] at hmem ⊢
      rcases hmem with h | ⟨i, hi, h⟩
      · rcases max_choice thisPayoff
          (exp (-r * ((Expiry : α) - (n : α))) * europeanPayoffRef Call Strike (spot n))
          with hm | hm
        · left
          rw [h, hm]
        · right
          exact ⟨n, Nat.lt_succ_self n, by rw [h, hm]⟩
      · right
        exact ⟨i, Nat.lt_succ_of_lt hi, h⟩
    · intro c hc
      simp only [Finset.mem_insert, Finset.mem_image, Finset.mem_range] at hc
      have hmax := hub _ (Finset.mem_insert_self _ _)
      rcases hc with h | ⟨i, hi, h⟩
      · rw [h]
        exact le_trans (le_max_left _ _) hmax
      · by_cases hin : i = n
        · subst hin
          rw [← h]
          exact le_trans (le_max_right _ _) hmax
        · exact hub c (by
            simp only [Finset.mem_insert, Finset.mem_image, Finset.mem_range]
            exact Or.inr ⟨i, by omega, h⟩)

theorem americanPayoff_spec (exp : α → α) (Call : Bool) (Expiry Strike : ℕ) (r : α)
    (spot : ℕ → α) (hE : 1 ≤ Expiry) (hI : Expiry ≤ 2147483647) :
    americanPayoff exp Call Expiry Strike r ((List.range Expiry).map fun j => some (spot j))
      = some (americanPayoffRef exp Call Expiry Strike r spot) := by
  have hbuf : ∀ i, i < Expiry →
      ((List.range Expiry).map fun j => some (spot j))[i]? = some (some (spot i)) := by
    intro i hi
    rw [List.getElem?_map, List.getElem?_range hi]
    rfl
  obtain ⟨q, hq, hmem, hub⟩ := exerciseLoop_spec exp Call Expiry Strike r spot _ hbuf
    (Expiry - 1) (by omega) (europeanPayoffRef Call Strike (spot (Expiry - 1)))
  have hstart : ((Expiry - 1 : ℕ) : ℤ) - 1 = toInt (sizeSub Expiry 2) := by
    rw [toInt_scan_start Expiry hE hI]
    omega
  unfold americanPayoff
  rw [if_neg (by omega), readAt_of_getElem? (hbuf (Expiry - 1) (by omega))]
  simp only []
  rw [clampedPayoff_eq_ref, ← hstart, hq]
  unfold americanPayoffRef exerciseCandidates
  exact congrArg some (le_antisymm (Finset.le_max' _ _ hmem) (Finset.max'_le _ _ _ hub))

theorem americanLoop_eq (exp : α → α) (Call : Bool) (Expiry Strike : ℕ) (r moved rootVar : α)
    (draws : ℕ → α) (N : ℕ) (hE : 1 ≤ Expiry) (hI : Expiry ≤ 2147483647) :
    ∀ (d i : ℕ) (runningSum : α) (pos : ℕ), N - i = d →
      americanLoop exp Call Expiry Strike r moved rootVar draws N i runningSum pos
        = some (runningSum + ∑ k in Finset.range d,
              americanPayoffRef exp Call Expiry Strike r
                (pathSpotRef exp moved rootVar
                  (fun l => draws (pos + k * (Expiry - 1) + l))),
            pos + d * (Expiry - 1)) := by
  intro d
  induction d with
  | zero =>
    intro i runningSum pos h
    rw [americanLoop, if_neg (by omega)]
    simp
  | succ d ih =>
    intro i runningSum pos h
    rw [americanLoop, if_pos (by omega),
      generatePath_spec exp moved rootVar draws Expiry pos hE hI]
    simp only []
    rw [americanPayoff_spec exp Call Expiry Strike r _ hE hI]
    simp only []
    rw [ih (i + 1) _ _ (by omega), Finset.sum_range_succ']
    simp only [zero_mul, add_zero, Option.some.injEq, Prod.mk.injEq]
    refine ⟨?_, by ring⟩
    rw [add_assoc, add_comm (americanPayoffRef _ _ _ _ _ _)]
    refine congrArg _ (congrArg (· + _) (Finset.sum_congr rfl ?_))
    intro k _
    have hpos : ∀ l, pos + (Expiry - 1) + k * (Expiry - 1) + l
        = pos + (k + 1) * (Expiry - 1) + l := by
      intro l
      ring
    simp only [hpos]

theorem pathSpotRef_congr (exp : α → α) (moved rootVar : α) (z z1 : ℕ → α) :
    ∀ (j : ℕ), (∀ l, l < j → z l = z1 l) →
      pathSpotRef exp moved rootVar z j = pathSpotRef exp moved rootVar z1 j := by
  intro j
  induction j with
  | zero =>
    intro _
    rfl
  | succ j ih =>
    intro h
    unfold pathSpotRef
    rw [ih (fun l hl => h l (Nat.lt_succ_of_lt hl)), h j (Nat.lt_succ_self j)]

theorem americanPayoffRef_congr (exp : α → α) (Call : Bool) (Expiry Strike : ℕ) (r : α)
    (spot spot1 : ℕ → α) (hE : 1 ≤ Expiry) (h : ∀ j, j < Expiry → spot j = spot1 j) :
    americanPayoffRef exp Call Expiry Strike r spot
      = americanPayoffRef exp Call Expiry Strike r spot1 := by
  have hc : exerciseCandidates exp Call Expiry Strike r spot
      = exerciseCandidates exp Call Expiry Strike r spot1 := by
    unfold exerciseCandidates
    rw [h (Expiry - 1) (by omega)]
    congr 1
    apply Finset.image_congr
    intro j hj
    have hj1 : j < Expiry - 1 := Finset.mem_range.mp hj
    simp only [h j (by omega)]
  unfold americanPayoffRef
  simp only [hc]

theorem pathSpotRef_closed (moved rootVar : ℝ) (z : ℕ → ℝ) :
    ∀ (j : ℕ), pathSpotRef Real.exp moved rootVar z j
      = moved * Real.exp (rootVar * ∑ k in Finset.range j, z k) := by
  intro j
  induction j with
  | zero => simp [pathSpotRef]
  | succ j ih =>
    unfold pathSpotRef
    rw [ih, Finset.sum_range_succ, mul_add, Real.exp_add, mul_assoc]

theorem pathLoop_fault (exp : α → α) (rootVar : α) (draws : ℕ → α) (Expiry : ℕ) :
    ∀ (d j : ℕ) (spotPath : List (Option α)) (pos : ℕ), spotPath.length - j = d →
      j ≤ spotPath.length → spotPath.length < Expiry →
      pathLoop exp rootVar draws Expiry j spotPath pos = none := by
  intro d
  induction d with
  | zero =>
    intro j spotPath pos hd hj hlen
    rw [pathLoop, if_pos (by omega)]
    cases hread : readAt spotPath (j - 1) with
    | none => rfl
    | some previous =>
      simp only []
      unfold writeAt
      rw [if_neg (by omega)]
  | succ d ih =>
    intro j spotPath pos hd hj hlen
    rw [pathLoop, if_pos (by omega)]
    cases hread : readAt spotPath (j - 1) with
    | none => rfl
    | some previous =>
      simp only []
      rw [writeAt_of_lt _ (by omega : j < spotPath.length)]
      simp only []
      by_cases hmax : j = 2147483647
      · rw [if_pos hmax]
      · rw [if_neg hmax]
        exact ih (j + 1) _ _ (by rw [List.length_set]; omega)
          (by rw [List.length_set]; omega) (by rw [List.length_set]; exact hlen)

theorem generatePath_fault (exp : α → α) (moved rootVar : α) (draws : ℕ → α)
    (Expiry pos : ℕ) (h : Expiry = 0 ∨ 2147483647 < Expiry) :
    generatePath exp moved rootVar draws Expiry pos = none := by
  unfold generatePath
  by_cases hneg : toInt Expiry < 0
  · rw [if_pos hneg]
  · rw [if_neg hneg]
    have hcells := toInt_le Expiry
    have hzero : Expiry = 0 → toInt Expiry = 0 := by
      intro h0
      rw [toInt_eq_self Expiry (by omega)]
      omega
    by_cases hempty : (toInt Expiry).toNat = 0
    · have hw : writeAt (List.replicate (toInt Expiry).toNat (none : Option α)) 0 moved
          = none := by
        unfold writeAt
        rw [if_neg (by rw [List.length_replicate]; omega)]
      rw [hw]
    · rw [writeAt_of_lt moved (by rw [List.length_replicate]; omega)]
      simp only []
      exact pathLoop_fault exp rootVar draws Expiry _ 1 _ pos rfl
        (by rw [List.length_set, List.length_replicate]; omega)
        (by rw [List.length_set, List.length_replicate]; omega)

theorem exerciseLoop_of_neg (exp : α → α) (Call : Bool) (Expiry Strike : ℕ) (r : α)
    (spotPath : List (Option α)) (j : ℤ) (thisPayoff : α) (hj : j < 0) :
    exerciseLoop exp Call Expiry Strike r spotPath j thisPayoff = some thisPayoff := by
  rw [exerciseLoop, if_neg (by omega)]

theorem americanPayoff_scan_skipped (exp : α → α) (Call : Bool) (Expiry Strike : ℕ) (r : α)
    (spot : ℕ → α) (h1 : 2147483650 ≤ Expiry) (h2 : Expiry ≤ 4294967297) :
    americanPayoff exp Call Expiry Strike r ((List.range Expiry).map fun j => some (spot j))
      = some (clampedPayoff Call Strike (spot (Expiry - 1))) := by
  have hlast : ((List.range Expiry).map fun j => some (spot j))[Expiry - 1]?
      = some (some (spot (Expiry - 1))) := by
    rw [List.getElem?_map, List.getElem?_range (by omega)]
    rfl
  unfold americanPayoff
  rw [if_neg (by omega), readAt_of_getElem? hlast]
  simp only []
  exact exerciseLoop_of_neg exp Call Expiry Strike r _ _ _ (toInt_scan_start_neg Expiry h1 h2)

end AmericanLemmas

/-! ## The pricer as a whole -/

section PricerLemmas

variable {α : Type} [LinearOrderedField α]

theorem SimpleMonteCarlo_european (exp sqrt : α → α) (Call : Bool)
    (Expiry Strike Spot : ℕ) (Return Vol r : α) (N : ℕ) (draws : ℕ → α) (pos : ℕ) :
    SimpleMonteCarlo exp sqrt Call false Expiry Strike Spot Return Vol r N draws pos
      = Outcome.returned
          (discounted exp r Expiry
            (meanOf (∑ k in Finset.range N,
              clampedPayoff Call Strike
                (movedSpot exp Expiry Spot Return Vol r
                  * exp (rootVariance sqrt Vol Expiry * draws (pos + k)))) N),
            pos + N) := by
  unfold SimpleMonteCarlo
  simp only [Bool.false_eq_true, if_false]
  rw [europeanLoop_eq exp Call Strike _ _ draws N N 0 0 pos (Nat.sub_zero N), zero_add]

theorem SimpleMonteCarlo_american (exp sqrt : α → α) (Call : Bool)
    (Expiry Strike Spot : ℕ) (Return Vol r : α) (N : ℕ) (draws : ℕ → α) (pos : ℕ)
    (hE : 1 ≤ Expiry) (hI : Expiry ≤ 2147483647) :
    SimpleMonteCarlo exp sqrt Call true Expiry Strike Spot Return Vol r N draws pos
      = Outcome.returned
          (discounted exp r Expiry
            (meanOf (∑ k in Finset.range N,
              americanPayoffRef exp Call Expiry Strike r
                (pathSpotRef exp (movedSpot exp Expiry Spot Return Vol r)
                  (rootVariance sqrt Vol Expiry)
                  (fun l => draws (pos + k * (Expiry - 1) + l)))) N),
            pos + N * (Expiry - 1)) := by
  unfold SimpleMonteCarlo
  simp only [if_true]
  rw [americanLoop_eq exp Call Expiry Strike r _ _ draws N hE hI N 0 0 pos (Nat.sub_zero N),
    zero_add]

theorem discounted_meanOf (exp : α → α) (r : α) (Expiry : ℕ) (total : α) (N : ℕ)
    (hN : 1 ≤ N) :
    discounted exp r Expiry (meanOf total N)
      = Dbl.num (exp (-r * (Expiry : α)) * ((1 / (N : α)) * total)) := by
  unfold meanOf
  rw [if_neg (by omega)]
  show Dbl.num (total / (N : α) * exp (-r * (Expiry : α))) = _
  congr 1
  ring

theorem movedSpot_real (Expiry Spot : ℕ) (Return Vol r : ℝ) :
    movedSpot Real.exp Expiry Spot Return Vol r
      = (Spot : ℝ) * Real.exp ((Return + r) * (Expiry : ℝ) - 0.5 * Vol ^ 2 * (Expiry : ℝ)) := by
  unfold movedSpot itoCorrelation variance
  congr 2
  ring

theorem rootVariance_real (Vol : ℝ) (Expiry : ℕ) :
    rootVariance Real.sqrt Vol Expiry = Real.sqrt (Vol ^ 2 * (Expiry : ℝ)) := by
  unfold rootVariance variance
  rw [sq]

theorem SimpleMonteCarlo_ne_thrown (exp sqrt : α → α) (Call American : Bool)
    (Expiry Strike Spot : ℕ) (Return Vol r : α) (N : ℕ) (draws : ℕ → α) (pos : ℕ) :
    SimpleMonteCarlo exp sqrt Call American Expiry Strike Spot Return Vol r N draws pos
      ≠ Outcome.thrown := by
  unfold SimpleMonteCarlo
  simp only []
  split <;> exact fun h => Outcome.noConfusion h

theorem SimpleMonteCarlo_zero_paths (exp sqrt : α → α) (Call American : Bool)
    (Expiry Strike Spot : ℕ) (Return Vol r : α) (draws : ℕ → α) (pos : ℕ) :
    SimpleMonteCarlo exp sqrt Call American Expiry Strike Spot Return Vol r 0 draws pos
      = Outcome.returned (Dbl.nan, pos) := by
  unfold SimpleMonteCarlo
  cases American
  · simp only [Bool.false_eq_true, if_false]
    rw [europeanLoop, if_neg (Nat.lt_irrefl 0)]
    rfl
  · simp only [if_true]
    rw [americanLoop, if_neg (Nat.lt_irrefl 0)]
    rfl

theorem SimpleMonteCarlo_american_fault (exp sqrt : α → α) (Call : Bool)
    (Expiry Strike Spot : ℕ) (Return Vol r : α) (N : ℕ) (draws : ℕ → α) (pos : ℕ)
    (hN : 1 ≤ N) (h : Expiry = 0 ∨ 2147483647 < Expiry) :
    SimpleMonteCarlo exp sqrt Call true Expiry Strike Spot Return Vol r N draws pos
      = Outcome.undefinedBehaviour := by
  unfold SimpleMonteCarlo
  simp only [if_true]
  rw [americanLoop, if_pos (by omega), generatePath_fault exp _ _ draws Expiry pos h]

theorem european_of_rootVariance_zero (Call : Bool) (Expiry Strike Spot : ℕ)
    (Return Vol r : ℝ) (N : ℕ) (draws : ℕ → ℝ) (pos : ℕ) (hN : 1 ≤ N)
    (hroot : rootVariance Real.sqrt Vol Expiry = 0) :
    SimpleMonteCarlo Real.exp Real.sqrt Call false Expiry Strike Spot Return Vol r N draws pos
      = Outcome.returned
          (Dbl.num (Real.exp (-r * (Expiry : ℝ))
            * europeanPayoffRef Call Strike (movedSpot Real.exp Expiry Spot Return Vol r)),
            pos + N) := by
  rw [SimpleMonteCarlo_european, discounted_meanOf _ _ _ _ _ hN, hroot]
  simp only [zero_mul, Real.exp_zero, mul_one, Finset.sum_const, Finset.card_range,
    nsmul_eq_mul, clampedPayoff_eq_ref]
  have hN0 : (N : ℝ) ≠ 0 := by
    exact_mod_cast (by omega : N ≠ 0)
  rw [one_div, inv_mul_cancel_left₀ hN0]

theorem european_zero_vol (Call : Bool) (Expiry Strike Spot : ℕ)
    (Return r : ℝ) (N : ℕ) (draws : ℕ → ℝ) (pos : ℕ) (hN : 1 ≤ N) :
    SimpleMonteCarlo Real.exp Real.sqrt Call false Expiry Strike Spot Return 0 r N draws pos
      = Outcome.returned
          (Dbl.num (Real.exp (-r * (Expiry : ℝ))
            * europeanPayoffRef Call Strike
                ((Spot : ℝ) * Real.exp ((Return + r) * (Expiry : ℝ)))),
            pos + N) := by
  rw [european_of_rootVariance_zero Call Expiry Strike Spot Return 0 r N draws pos hN
    (by simp [rootVariance, variance])]
  simp [movedSpot, itoCorrelation, variance]

theorem european_expiry_zero (Call : Bool) (Strike Spot : ℕ)
    (Return Vol r : ℝ) (N : ℕ) (draws : ℕ → ℝ) (pos : ℕ) (hN : 1 ≤ N) :
    SimpleMonteCarlo Real.exp Real.sqrt Call false 0 Strike Spot Return Vol r N draws pos
      = Outcome.returned (Dbl.num (europeanPayoffRef Call Strike (Spot : ℝ)), pos + N) := by
  rw [european_of_rootVariance_zero Call 0 Strike Spot Return Vol r N draws pos hN
    (by simp [rootVariance, variance])]
  simp [movedSpot, itoCorrelation, variance]

theorem SimpleMonteCarlo_transport (exp sqrt : α → α) (Call American : Bool)
    (Expiry Strike Spot : ℕ) (Return Vol r : α) (N : ℕ) (draws draws1 : ℕ → α)
    (pos pos1 : ℕ)
    (h : ∀ k, k < drawsTaken American Expiry N → draws1 (pos1 + k) = draws (pos + k)) :
    (∀ v p, SimpleMonteCarlo exp sqrt Call American Expiry Strike Spot Return Vol r N draws pos
          = Outcome.returned (v, p) →
        p = pos + drawsTaken American Expiry N
        ∧ SimpleMonteCarlo exp sqrt Call American Expiry Strike Spot Return Vol r N draws1 pos1
          = Outcome.returned (v, pos1 + drawsTaken American Expiry N))
      ∧ (SimpleMonteCarlo exp sqrt Call American Expiry Strike Spot Return Vol r N draws pos
          = Outcome.undefinedBehaviour →
        SimpleMonteCarlo exp sqrt Call American Expiry Strike Spot Return Vol r N draws1 pos1
          = Outcome.undefinedBehaviour) := by
  cases American
  · have hsum : ∑ k in Finset.range N, clampedPayoff Call Strike
          (movedSpot exp Expiry Spot Return Vol r
            * exp (rootVariance sqrt Vol Expiry * draws1 (pos1 + k)))
        = ∑ k in Finset.range N, clampedPayoff Call Strike
          (movedSpot exp Expiry Spot Return Vol r
            * exp (rootVariance sqrt Vol Expiry * draws (pos + k))) :=
      Finset.sum_congr rfl fun k hk => by
        rw [h k (by simpa [drawsTaken] using Finset.mem_range.mp hk)]
    rw [SimpleMonteCarlo_european, SimpleMonteCarlo_european, hsum]
    simp only [drawsTaken, Bool.false_eq_true, if_false]
    refine ⟨?_, fun hu => Outcome.noConfusion hu⟩
    intro v p hv
    simp only [Outcome.returned.injEq, Prod.mk.injEq] at hv
    exact ⟨hv.2.symm, by rw [hv.1]⟩
  · by_cases hfit : 1 ≤ Expiry ∧ Expiry ≤ 2147483647
    swap
    · have hout : Expiry = 0 ∨ 2147483647 < Expiry := by omega
      rcases Nat.eq_zero_or_pos N with hN0 | hN
      · subst hN0
        rw [SimpleMonteCarlo_zero_paths, SimpleMonteCarlo_zero_paths]
        simp only [drawsTaken, if_true, Nat.zero_mul, Nat.add_zero]
        refine ⟨?_, fun hu => Outcome.noConfusion hu⟩
        intro v p hv
        simp only [Outcome.returned.injEq, Prod.mk.injEq] at hv
        exact ⟨hv.2.symm, by rw [hv.1]⟩
      · rw [SimpleMonteCarlo_american_fault _ _ _ _ _ _ _ _ _ _ _ _ hN hout,
          SimpleMonteCarlo_american_fault _ _ _ _ _ _ _ _ _ _ _ _ hN hout]
        exact ⟨fun v p hv => Outcome.noConfusion hv, fun _ => rfl⟩
    · obtain ⟨hE, hI⟩ := hfit
      have hsum : ∑ k in Finset.range N, americanPayoffRef exp Call Expiry Strike r
            (pathSpotRef exp (movedSpot exp Expiry Spot Return Vol r)
              (rootVariance sqrt Vol Expiry) (fun l => draws1 (pos1 + k * (Expiry - 1) + l)))
          = ∑ k in Finset.range N, americanPayoffRef exp Call Expiry Strike r
            (pathSpotRef exp (movedSpot exp Expiry Spot Return Vol r)
              (rootVariance sqrt Vol Expiry) (fun l => draws (pos + k * (Expiry - 1) + l))) := by
        refine Finset.sum_congr rfl fun k hk => ?_
        refine americanPayoffRef_congr exp Call Expiry Strike r _ _ hE fun j hj => ?_
        refine pathSpotRef_congr exp _ _ _ _ j fun l hl => ?_
        have hk1 : k < N := Finset.mem_range.mp hk
        have hmul : (k + 1) * (Expiry - 1) ≤ N * (Expiry - 1) :=
          Nat.mul_le_mul_right _ hk1
        have hexp : (k + 1) * (Expiry - 1) = k * (Expiry - 1) + (Expiry - 1) := by ring
        have hb : k * (Expiry - 1) + l < drawsTaken true Expiry N := by
          simp only [drawsTaken, if_true]
          omega
        simp only [Nat.add_assoc]
        exact h _ hb
      rw [SimpleMonteCarlo_american _ _ _ _ _ _ _ _ _ _ _ _ hE hI,
        SimpleMonteCarlo_american _ _ _ _ _ _ _ _ _ _ _ _ hE hI, hsum]
      simp only [drawsTaken, if_true]
      refine ⟨?_, fun hu => Outcome.noConfusion hu⟩
      intro v p hv
      simp only [Outcome.returned.injEq, Prod.mk.injEq] at hv
      exact ⟨hv.2.symm, by rw [hv.1]⟩

theorem SimpleMonteCarlo_returned (exp sqrt : α → α) (Call American : Bool)
    (Expiry Strike Spot : ℕ) (Return Vol r : α) (N : ℕ) (draws : ℕ → α) (pos : ℕ)
    (hfit : American = true → 1 ≤ Expiry ∧ Expiry ≤ 2147483647) :
    ∃ v, SimpleMonteCarlo exp sqrt Call American Expiry Strike Spot Return Vol r N draws pos
      = Outcome.returned (v, pos + drawsTaken American Expiry N) := by
  cases American
  · exact ⟨_, SimpleMonteCarlo_european _ _ _ _ _ _ _ _ _ _ _ _⟩
  · exact ⟨_, SimpleMonteCarlo_american _ _ _ _ _ _ _ _ _ _ _ _ (hfit rfl).1 (hfit rfl).2⟩

theorem european_driver_path (draws : ℕ → ℝ) (pos : ℕ) :
    SimpleMonteCarlo Real.exp Real.sqrt true false 1 100 100 0 0.3 0 1 draws pos
      = Outcome.returned
          (Dbl.num (max 0 (100 * Real.exp (0.3 * draws pos - 0.045) - 100)), pos + 1) := by
  rw [SimpleMonteCarlo_european, discounted_meanOf _ _ _ _ _ le_rfl]
  have hmoved : movedSpot Real.exp 1 100 0 0.3 0 = 100 * Real.exp (-0.045) := by
    unfold movedSpot itoCorrelation variance
    norm_num
  have hroot : rootVariance Real.sqrt 0.3 1 = 0.3 := by
    unfold rootVariance variance
    rw [Nat.cast_one, mul_one, Real.sqrt_mul_self (by norm_num)]
  rw [hmoved, hroot]
  simp only [Finset.sum_range_one, Nat.add_zero, clampedPayoff_eq_ref, europeanPayoffRef,
    if_true, mul_assoc, ← Real.exp_add]
  norm_num
  ring_nf

theorem european_unit_path (draws : ℕ → ℝ) (pos : ℕ) :
    SimpleMonteCarlo Real.exp Real.sqrt true false 1 0 1 0 1 0 1 draws pos
      = Outcome.returned (Dbl.num (Real.exp (draws pos - 1 / 2)), pos + 1) := by
  rw [SimpleMonteCarlo_european, discounted_meanOf _ _ _ _ _ le_rfl]
  have hmoved : movedSpot Real.exp 1 1 0 1 0 = Real.exp (-(1 / 2)) := by
    unfold movedSpot itoCorrelation variance
    norm_num
  have hroot : rootVariance Real.sqrt 1 1 = 1 := by
    unfold rootVariance variance
    norm_num
  have hpay : ∀ x : ℝ, clampedPayoff true 0 (Real.exp x) = Real.exp x := by
    intro x
    unfold clampedPayoff
    simp [Real.exp_pos]
  rw [hmoved, hroot]
  simp only [Finset.sum_range_one, Nat.add_zero, one_mul, ← Real.exp_add, hpay]
  norm_num
  ring_nf

theorem americanPathPayoff_congr (exp : α → α) (Call : Bool) (Expiry Strike : ℕ)
    (r moved rootVar : α) (z z1 : ℕ → α) (hE : 1 ≤ Expiry)
    (h : ∀ l, l < Expiry - 1 → z l = z1 l) :
    americanPayoffRef exp Call Expiry Strike r (pathSpotRef exp moved rootVar z)
      = americanPayoffRef exp Call Expiry Strike r (pathSpotRef exp moved rootVar z1) :=
  americanPayoffRef_congr exp Call Expiry Strike r _ _ hE fun j hj =>
    pathSpotRef_congr exp moved rootVar z z1 j fun l hl => h l (by omega)

theorem americanPayoffRef_expiry_one (exp : α → α) (Call : Bool) (Strike : ℕ) (r : α)
    (spot : ℕ → α) :
    americanPayoffRef exp Call 1 Strike r spot = europeanPayoffRef Call Strike (spot 0) := by
  unfold americanPayoffRef exerciseCandidates
  simp

theorem clampedPayoff_call_sub_put (Strike : ℕ) (s : α) :
    clampedPayoff true Strike s - clampedPayoff false Strike s = s - (Strike : α) := by
  rw [clampedPayoff_eq_ref, clampedPayoff_eq_ref]
  unfold europeanPayoffRef
  simp only [if_true, Bool.false_eq_true, if_false]
  rcases le_total s (Strike : α) with h | h
  · rw [max_eq_left (sub_nonpos.mpr h), max_eq_right (sub_nonneg.mpr h)]
    ring
  · rw [max_eq_right (sub_nonneg.mpr h), max_eq_left (sub_nonpos.mpr h)]
    ring

theorem SimpleMonteCarlo_perm_european (exp sqrt : α → α) (Call : Bool)
    (Expiry Strike Spot : ℕ) (Return Vol r : α) (N : ℕ) (draws draws1 : ℕ → α) (pos : ℕ)
    (σ : Equiv.Perm (Fin N))
    (h : ∀ i : Fin N, draws1 (pos + (i : ℕ)) = draws (pos + ((σ i : Fin N) : ℕ))) :
    SimpleMonteCarlo exp sqrt Call false Expiry Strike Spot Return Vol r N draws1 pos
      = SimpleMonteCarlo exp sqrt Call false Expiry Strike Spot Return Vol r N draws pos := by
  rw [SimpleMonteCarlo_european, SimpleMonteCarlo_european, Finset.sum_range, Finset.sum_range]
  simp only [h]
  rw [Equiv.sum_comp σ fun i : Fin N => clampedPayoff Call Strike
    (movedSpot exp Expiry Spot Return Vol r
      * exp (rootVariance sqrt Vol Expiry * draws (pos + (i : ℕ))))]

theorem SimpleMonteCarlo_perm_american (exp sqrt : α → α) (Call : Bool)
    (Expiry Strike Spot : ℕ) (Return Vol r : α) (N : ℕ) (draws draws1 : ℕ → α) (pos : ℕ)
    (σ : Equiv.Perm (Fin N))
    (h : ∀ (i : Fin N) (l : ℕ), l < Expiry - 1 →
      draws1 (pos + (i : ℕ) * (Expiry - 1) + l)
        = draws (pos + ((σ i : Fin N) : ℕ) * (Expiry - 1) + l)) :
    SimpleMonteCarlo exp sqrt Call true Expiry Strike Spot Return Vol r N draws1 pos
      = SimpleMonteCarlo exp sqrt Call true Expiry Strike Spot Return Vol r N draws pos := by
  by_cases hfit : 1 ≤ Expiry ∧ Expiry ≤ 2147483647
  swap
  · have hout : Expiry = 0 ∨ 2147483647 < Expiry := by omega
    rcases Nat.eq_zero_or_pos N with hN0 | hN
    · subst hN0
      rw [SimpleMonteCarlo_zero_paths, SimpleMonteCarlo_zero_paths]
    · rw [SimpleMonteCarlo_american_fault _ _ _ _ _ _ _ _ _ _ _ _ hN hout,
        SimpleMonteCarlo_american_fault _ _ _ _ _ _ _ _ _ _ _ _ hN hout]
  · obtain ⟨hE, hI⟩ := hfit
    rw [SimpleMonteCarlo_american _ _ _ _ _ _ _ _ _ _ _ _ hE hI,
      SimpleMonteCarlo_american _ _ _ _ _ _ _ _ _ _ _ _ hE hI, Finset.sum_range,
      Finset.sum_range]
    have hpath : ∀ i : Fin N,
        americanPayoffRef exp Call Expiry Strike r
          (pathSpotRef exp (movedSpot exp Expiry Spot Return Vol r)
            (rootVariance sqrt Vol Expiry)
            (fun l => draws1 (pos + (i : ℕ) * (Expiry - 1) + l)))
        = americanPayoffRef exp Call Expiry Strike r
          (pathSpotRef exp (movedSpot exp Expiry Spot Return Vol r)
            (rootVariance sqrt Vol Expiry)
            (fun l => draws (pos + ((σ i : Fin N) : ℕ) * (Expiry - 1) + l))) :=
      fun i => americanPathPayoff_congr exp Call Expiry Strike r _ _ _ _ hE (h i)
    simp only [hpath]
    rw [Equiv.sum_comp σ fun i : Fin N => americanPayoffRef exp Call Expiry Strike r
      (pathSpotRef exp (movedSpot exp Expiry Spot Return Vol r)
        (rootVariance sqrt Vol Expiry)
        (fun l => draws (pos + (i : ℕ) * (Expiry - 1) + l)))]

theorem SimpleMonteCarlo_neg_vol (exp sqrt : α → α) (Call American : Bool)
    (Expiry Strike Spot : ℕ) (Return Vol r : α) (N : ℕ) (draws : ℕ → α) (pos : ℕ) :
    SimpleMonteCarlo exp sqrt Call American Expiry Strike Spot Return (-Vol) r N draws pos
      = SimpleMonteCarlo exp sqrt Call American Expiry Strike Spot Return Vol r N draws pos := by
  unfold SimpleMonteCarlo rootVariance movedSpot itoCorrelation variance
  rw [neg_mul_neg]

theorem readAt_some_lt {β : Type} {spotPath : List (Option β)} {i : ℕ} {x : β}
    (h : readAt spotPath i = some x) : i < spotPath.length := by
  by_contra hlt
  unfold readAt at h
  rw [List.getElem?_eq_none (by omega)] at h
  exact Option.noConfusion h

theorem writeAt_some_lt {β : Type} {spotPath written : List (Option β)} {i : ℕ} {v : β}
    (h : writeAt spotPath i v = some written) : i < spotPath.length := by
  by_contra hlt
  unfold writeAt at h
  rw [if_neg hlt] at h
  exact Option.noConfusion h

theorem american_expiry_one (Call : Bool) (Strike Spot : ℕ) (Return Vol r : ℝ) (N : ℕ)
    (draws : ℕ → ℝ) (pos : ℕ) (hN : 1 ≤ N) :
    SimpleMonteCarlo Real.exp Real.sqrt Call true 1 Strike Spot Return Vol r N draws pos
      = Outcome.returned
          (Dbl.num (Real.exp (-r)
            * europeanPayoffRef Call Strike
                ((Spot : ℝ) * Real.exp (Return + r - 0.5 * Vol ^ 2))), pos) := by
  have hN0 : (N : ℝ) ≠ 0 := by
    exact_mod_cast (by omega : N ≠ 0)
  have hmoved : movedSpot Real.exp 1 Spot Return Vol r
      = (Spot : ℝ) * Real.exp (Return + r - 0.5 * Vol ^ 2) := by
    rw [movedSpot_real]
    congr 2
    simp only [Nat.cast_one, mul_one]
  rw [SimpleMonteCarlo_american _ _ _ _ _ _ _ _ _ _ _ _ le_rfl (by norm_num),
    discounted_meanOf _ _ _ _ _ hN]
  simp only [americanPayoffRef_expiry_one, pathSpotRef, Finset.sum_const, Finset.card_range,
    nsmul_eq_mul, Nat.sub_self, Nat.mul_zero, Nat.add_zero, Nat.cast_one, mul_one, hmoved]
  rw [one_div, inv_mul_cancel_left₀ hN0]

theorem gaussian_exp_mean (s : ℝ) :
    ∫ z, Real.exp (s * z) ∂(ProbabilityTheory.gaussianReal 0 1) = Real.exp (s ^ 2 / 2) := by
  have hmeas : Measurable fun x => (ProbabilityTheory.gaussianPDFReal 0 1 x).toNNReal :=
    (ProbabilityTheory.measurable_gaussianPDFReal 0 1).real_toNNReal
  have hdens : ProbabilityTheory.gaussianReal 0 1
      = MeasureTheory.volume.withDensity
          fun x => (((ProbabilityTheory.gaussianPDFReal 0 1 x).toNNReal : NNReal) : ENNReal) :=
    ProbabilityTheory.gaussianReal_of_var_ne_zero 0 one_ne_zero
  rw [hdens, integral_withDensity_eq_integral_smul hmeas]
  have hpt : ∀ x : ℝ, (ProbabilityTheory.gaussianPDFReal 0 1 x).toNNReal • Real.exp (s * x)
      = Real.exp (s ^ 2 / 2) * ProbabilityTheory.gaussianPDFReal s 1 x := by
    intro x
    rw [NNReal.smul_def, Real.coe_toNNReal _ (ProbabilityTheory.gaussianPDFReal_nonneg 0 1 x),
      smul_eq_mul]
    unfold ProbabilityTheory.gaussianPDFReal
    rw [mul_assoc, ← Real.exp_add, mul_left_comm, ← Real.exp_add]
    congr 2
    simp only [NNReal.coe_one]
    ring
  simp only [hpt]
  rw [MeasureTheory.integral_mul_left,
    ProbabilityTheory.integral_gaussianPDFReal_eq_one s one_ne_zero, mul_one]

theorem rootVariance_sq (Vol : ℝ) (Expiry : ℕ) :
    rootVariance Real.sqrt Vol Expiry ^ 2 = variance Vol Expiry := by
  unfold rootVariance
  exact Real.sq_sqrt (mul_nonneg (mul_self_nonneg Vol) (Nat.cast_nonneg Expiry))

end PricerLemmas

/-! ## Expectations against the standard normal law -/

section GaussianLemmas

open MeasureTheory ProbabilityTheory

theorem gaussian_integrable_exp (s : ℝ) :
    Integrable (fun z => Real.exp (s * z)) (gaussianReal 0 1) := by
  by_contra h
  have h0 := integral_undef h
  rw [gaussian_exp_mean] at h0
  exact (Real.exp_pos _).ne' h0

theorem gaussian_tilt (s : ℝ) (A : Set ℝ) (hA : MeasurableSet A) :
    ∫ z in A, Real.exp (s * z - s ^ 2 / 2) ∂(gaussianReal 0 1)
      = (gaussianReal s 1 A).toReal := by
  have hmeas : Measurable fun x => (gaussianPDFReal 0 1 x).toNNReal :=
    (measurable_gaussianPDFReal 0 1).real_toNNReal
  have hdens : gaussianReal 0 1
      = volume.withDensity fun x => (((gaussianPDFReal 0 1 x).toNNReal : NNReal) : ENNReal) :=
    gaussianReal_of_var_ne_zero 0 one_ne_zero
  rw [hdens, setIntegral_withDensity_eq_setIntegral_smul hmeas _ hA]
  have hpt : ∀ x : ℝ, (gaussianPDFReal 0 1 x).toNNReal • Real.exp (s * x - s ^ 2 / 2)
      = gaussianPDFReal s 1 x := by
    intro x
    rw [NNReal.smul_def, Real.coe_toNNReal _ (gaussianPDFReal_nonneg 0 1 x), smul_eq_mul]
    unfold gaussianPDFReal
    rw [mul_assoc, ← Real.exp_add]
    congr 2
    simp only [NNReal.coe_one]
    ring
  simp only [hpt]
  rw [gaussianReal_apply_eq_integral s one_ne_zero A,
    ENNReal.toReal_ofReal (setIntegral_nonneg hA fun x _ => gaussianPDFReal_nonneg s 1 x)]

theorem gaussian_shift_tail (s t : ℝ) :
    gaussianReal s 1 (Set.Ioi t) = gaussianReal 0 1 (Set.Ioi (t - s)) := by
  have hmap : (gaussianReal 0 1).map (fun z => z + s) = gaussianReal s 1 := by
    have h := gaussianReal_map_add_const (μ := 0) (v := 1) s
    rwa [zero_add] at h
  have hm : Measurable fun z : ℝ => z + s := measurable_id.add_const s
  rw [← hmap, Measure.map_apply hm measurableSet_Ioi]
  congr 1
  ext z
  simp only [Set.mem_preimage, Set.mem_Ioi]
  constructor <;> intro h <;> linarith

theorem gaussian_Ioc_pos (t u : ℝ) (h : t < u) : 0 < gaussianReal 0 1 (Set.Ioc t u) := by
  rw [pos_iff_ne_zero]
  intro h0
  have hvol := gaussianReal_absolutelyContinuous' 0 (one_ne_zero : (1 : NNReal) ≠ 0) h0
  rw [Real.volume_Ioc, ENNReal.ofReal_eq_zero] at hvol
  linarith

theorem gaussian_tail_strict (t u : ℝ) (h : t < u) :
    (gaussianReal 0 1 (Set.Ioi u)).toReal < (gaussianReal 0 1 (Set.Ioi t)).toReal := by
  have hsplit : gaussianReal 0 1 (Set.Ioi t)
      = gaussianReal 0 1 (Set.Ioc t u) + gaussianReal 0 1 (Set.Ioi u) := by
    rw [← measure_union (Set.Ioc_disjoint_Ioi le_rfl) measurableSet_Ioi,
      Set.Ioc_union_Ioi_eq_Ioi h.le]
  rw [hsplit, ENNReal.toReal_add (measure_ne_top _ _) (measure_ne_top _ _)]
  have hpos : 0 < (gaussianReal 0 1 (Set.Ioc t u)).toReal :=
    ENNReal.toReal_pos (gaussian_Ioc_pos t u h).ne' (measure_ne_top _ _)
  linarith

theorem gaussian_Ioi_pos (t : ℝ) : 0 < gaussianReal 0 1 (Set.Ioi t) :=
  lt_of_lt_of_le (gaussian_Ioc_pos t (t + 1) (by linarith))
    (measure_mono Set.Ioc_subset_Ioi_self)

theorem gaussian_Iio_pos (t : ℝ) : 0 < gaussianReal 0 1 (Set.Iio t) :=
  lt_of_lt_of_le (gaussian_Ioc_pos (t - 2) (t - 1) (by linarith))
    (measure_mono fun x hx => by
      simp only [Set.mem_Ioc, Set.mem_Iio] at hx ⊢
      linarith [hx.2])

theorem gaussian_integrable_tilt (s : ℝ) :
    Integrable (fun z => Real.exp (s * z - s ^ 2 / 2)) (gaussianReal 0 1) := by
  have h := (gaussian_integrable_exp s).mul_const (Real.exp (-(s ^ 2 / 2)))
  refine h.congr (ae_of_all _ fun z => ?_)
  simp only []
  rw [← Real.exp_add]
  congr 1

theorem gaussian_integrable_gain (F K s : ℝ) :
    Integrable (fun z => F * Real.exp (s * z - s ^ 2 / 2) - K) (gaussianReal 0 1) :=
  ((gaussian_integrable_tilt s).const_mul F).sub (integrable_const K)

theorem gaussian_integrable_call (F K s : ℝ) :
    Integrable (fun z => max 0 (F * Real.exp (s * z - s ^ 2 / 2) - K)) (gaussianReal 0 1) := by
  have h := (gaussian_integrable_gain F K s).pos_part
  refine h.congr (ae_of_all _ fun z => ?_)
  exact max_comm _ _

theorem gaussian_tail_gain (F K s t : ℝ) :
    ∫ z in Set.Ioi t, (F * Real.exp (s * z - s ^ 2 / 2) - K) ∂(gaussianReal 0 1)
      = F * (gaussianReal 0 1 (Set.Ioi (t - s))).toReal
        - K * (gaussianReal 0 1 (Set.Ioi t)).toReal := by
  rw [integral_sub ((gaussian_integrable_tilt s).const_mul F).integrableOn
    (integrable_const K).integrableOn, integral_mul_left,
    gaussian_tilt s _ measurableSet_Ioi, gaussian_shift_tail, setIntegral_const, smul_eq_mul,
    mul_comm _ K]

theorem call_value_ge (F K s t : ℝ) :
    F * (gaussianReal 0 1 (Set.Ioi (t - s))).toReal - K * (gaussianReal 0 1 (Set.Ioi t)).toReal
      ≤ ∫ z, max 0 (F * Real.exp (s * z - s ^ 2 / 2) - K) ∂(gaussianReal 0 1) := by
  rw [← gaussian_tail_gain, ← integral_indicator measurableSet_Ioi]
  refine integral_mono ((gaussian_integrable_gain F K s).indicator measurableSet_Ioi)
    (gaussian_integrable_call F K s) fun z => ?_
  by_cases hz : z ∈ Set.Ioi t
  · rw [Set.indicator_of_mem hz]
    exact le_max_right _ _
  · rw [Set.indicator_of_not_mem hz]
    exact le_max_left _ _

theorem gain_pos_iff (F K s z : ℝ) (hF : 0 < F) (hK : 0 < K) (hs : 0 < s) :
    0 < F * Real.exp (s * z - s ^ 2 / 2) - K ↔ (Real.log (K / F) + s ^ 2 / 2) / s < z := by
  rw [sub_pos, div_lt_iff₀ hs, ← div_lt_iff₀' hF, ← Real.log_lt_iff_lt_exp (div_pos hK hF)]
  constructor <;> intro h <;> linarith

theorem call_value_eq (F K s : ℝ) (hF : 0 < F) (hK : 0 < K) (hs : 0 < s) :
    ∫ z, max 0 (F * Real.exp (s * z - s ^ 2 / 2) - K) ∂(gaussianReal 0 1)
      = F * (gaussianReal 0 1 (Set.Ioi ((Real.log (K / F) + s ^ 2 / 2) / s - s))).toReal
        - K * (gaussianReal 0 1 (Set.Ioi ((Real.log (K / F) + s ^ 2 / 2) / s))).toReal := by
  rw [← gaussian_tail_gain, ← integral_indicator measurableSet_Ioi]
  refine integral_congr_ae (ae_of_all _ fun z => ?_)
  simp only []
  by_cases hz : z ∈ Set.Ioi ((Real.log (K / F) + s ^ 2 / 2) / s)
  · rw [Set.indicator_of_mem hz]
    exact max_eq_right ((gain_pos_iff F K s z hF hK hs).mpr hz).le
  · rw [Set.indicator_of_not_mem hz]
    refine max_eq_left (not_lt.mp fun hpos => hz ?_)
    exact (gain_pos_iff F K s z hF hK hs).mp hpos

theorem call_value_strict_mono_pos (F K s1 s2 : ℝ) (hF : 0 < F) (hK : 0 < K)
    (h1 : 0 < s1) (h12 : s1 < s2) :
    ∫ z, max 0 (F * Real.exp (s1 * z - s1 ^ 2 / 2) - K) ∂(gaussianReal 0 1)
      < ∫ z, max 0 (F * Real.exp (s2 * z - s2 ^ 2 / 2) - K) ∂(gaussianReal 0 1) := by
  have hge := call_value_ge F K s2 ((Real.log (K / F) + s1 ^ 2 / 2) / s1 + (s2 - s1))
  have htail := gaussian_tail_strict ((Real.log (K / F) + s1 ^ 2 / 2) / s1)
    ((Real.log (K / F) + s1 ^ 2 / 2) / s1 + (s2 - s1)) (by linarith)
  have hshift : (Real.log (K / F) + s1 ^ 2 / 2) / s1 + (s2 - s1) - s2
      = (Real.log (K / F) + s1 ^ 2 / 2) / s1 - s1 := by ring
  rw [hshift] at hge
  rw [call_value_eq F K s1 hF hK h1]
  have hmul := mul_lt_mul_of_pos_left htail hK
  linarith

theorem gaussian_tilt_mean (s : ℝ) :
    ∫ z, Real.exp (s * z - s ^ 2 / 2) ∂(gaussianReal 0 1) = 1 := by
  rw [← setIntegral_univ, gaussian_tilt s _ MeasurableSet.univ, measure_univ, ENNReal.one_toReal]

theorem gaussian_gain_mean (F K s : ℝ) :
    ∫ z, (F * Real.exp (s * z - s ^ 2 / 2) - K) ∂(gaussianReal 0 1) = F - K := by
  rw [integral_sub ((gaussian_integrable_tilt s).const_mul F) (integrable_const K),
    integral_mul_left, gaussian_tilt_mean, integral_const, measure_univ, ENNReal.one_toReal,
    mul_one, one_smul]

theorem gaussian_integrable_put (F K s : ℝ) :
    Integrable (fun z => max 0 (K - F * Real.exp (s * z - s ^ 2 / 2))) (gaussianReal 0 1) := by
  have h := (gaussian_integrable_gain F K s).neg.pos_part
  refine h.congr (ae_of_all _ fun z => ?_)
  simp only [Pi.neg_apply, neg_sub]
  exact max_comm _ _

theorem put_value_eq_call_value (F K s : ℝ) :
    ∫ z, max 0 (K - F * Real.exp (s * z - s ^ 2 / 2)) ∂(gaussianReal 0 1)
      = ∫ z, max 0 (F * Real.exp (s * z - s ^ 2 / 2) - K) ∂(gaussianReal 0 1) - (F - K) := by
  rw [← gaussian_gain_mean F K s,
    ← integral_sub (gaussian_integrable_call F K s) (gaussian_integrable_gain F K s)]
  refine integral_congr_ae (ae_of_all _ fun z => ?_)
  simp only []
  rcases le_total (F * Real.exp (s * z - s ^ 2 / 2)) K with h | h
  · rw [max_eq_right (sub_nonneg.mpr h), max_eq_left (sub_nonpos.mpr h)]
    ring
  · rw [max_eq_left (sub_nonpos.mpr h), max_eq_right (sub_nonneg.mpr h)]
    ring

theorem call_value_pos (F K s : ℝ) (hF : 0 < F) (hK : 0 < K) (hs : 0 < s) :
    0 < ∫ z, max 0 (F * Real.exp (s * z - s ^ 2 / 2) - K) ∂(gaussianReal 0 1) := by
  have hnn : (0 : ℝ → ℝ) ≤ fun z => max 0 (F * Real.exp (s * z - s ^ 2 / 2) - K) :=
    fun z => le_max_left _ _
  rw [integral_pos_iff_support_of_nonneg hnn (gaussian_integrable_call F K s)]
  refine lt_of_lt_of_le (gaussian_Ioi_pos ((Real.log (K / F) + s ^ 2 / 2) / s))
    (measure_mono fun z hz => ?_)
  have hpos := (gain_pos_iff F K s z hF hK hs).mpr hz
  simp only [Function.mem_support, ne_eq]
  rw [max_eq_right hpos.le]
  exact hpos.ne'

theorem loss_pos_iff (F K s z : ℝ) (hF : 0 < F) (hK : 0 < K) (hs : 0 < s) :
    0 < K - F * Real.exp (s * z - s ^ 2 / 2) ↔ z < (Real.log (K / F) + s ^ 2 / 2) / s := by
  rw [sub_pos, lt_div_iff₀ hs, ← lt_div_iff₀' hF, ← Real.lt_log_iff_exp_lt (div_pos hK hF)]
  constructor <;> intro h <;> linarith

theorem put_value_pos (F K s : ℝ) (hF : 0 < F) (hK : 0 < K) (hs : 0 < s) :
    0 < ∫ z, max 0 (K - F * Real.exp (s * z - s ^ 2 / 2)) ∂(gaussianReal 0 1) := by
  have hnn : (0 : ℝ → ℝ) ≤ fun z => max 0 (K - F * Real.exp (s * z - s ^ 2 / 2)) :=
    fun z => le_max_left _ _
  rw [integral_pos_iff_support_of_nonneg hnn (gaussian_integrable_put F K s)]
  refine lt_of_lt_of_le (gaussian_Iio_pos ((Real.log (K / F) + s ^ 2 / 2) / s))
    (measure_mono fun z hz => ?_)
  have hpos := (loss_pos_iff F K s z hF hK hs).mpr hz
  simp only [Function.mem_support, ne_eq]
  rw [max_eq_right hpos.le]
  exact hpos.ne'

theorem call_value_strict_mono (F K s1 s2 : ℝ) (hF : 0 < F) (hK : 0 < K)
    (h1 : 0 ≤ s1) (h12 : s1 < s2) :
    ∫ z, max 0 (F * Real.exp (s1 * z - s1 ^ 2 / 2) - K) ∂(gaussianReal 0 1)
      < ∫ z, max 0 (F * Real.exp (s2 * z - s2 ^ 2 / 2) - K) ∂(gaussianReal 0 1) := by
  rcases h1.eq_or_lt with h0 | hpos
  · subst h0
    have hs2 : 0 < s2 := h12
    have hconst : ∫ z, max 0 (F * Real.exp (0 * z - 0 ^ 2 / 2) - K) ∂(gaussianReal 0 1)
        = max 0 (F - K) := by
      simp
    rw [hconst]
    have hc := call_value_pos F K s2 hF hK hs2
    have hp := put_value_pos F K s2 hF hK hs2
    rw [put_value_eq_call_value] at hp
    exact max_lt hc (by linarith)
  · exact call_value_strict_mono_pos F K s1 s2 hF hK hpos h12

theorem put_value_strict_mono (F K s1 s2 : ℝ) (hF : 0 < F) (hK : 0 < K)
    (h1 : 0 ≤ s1) (h12 : s1 < s2) :
    ∫ z, max 0 (K - F * Real.exp (s1 * z - s1 ^ 2 / 2)) ∂(gaussianReal 0 1)
      < ∫ z, max 0 (K - F * Real.exp (s2 * z - s2 ^ 2 / 2)) ∂(gaussianReal 0 1) := by
  rw [put_value_eq_call_value, put_value_eq_call_value]
  have h := call_value_strict_mono F K s1 s2 hF hK h1 h12
  linarith

theorem terminalSpot_forward_form (Expiry Spot : ℕ) (Return Vol r z : ℝ) :
    movedSpot Real.exp Expiry Spot Return Vol r
        * Real.exp (rootVariance Real.sqrt Vol Expiry * z)
      = ((Spot : ℝ) * Real.exp ((Return + r) * (Expiry : ℝ)))
        * Real.exp (rootVariance Real.sqrt Vol Expiry * z
            - rootVariance Real.sqrt Vol Expiry ^ 2 / 2) := by
  rw [rootVariance_sq]
  unfold movedSpot itoCorrelation
  rw [mul_assoc, mul_assoc, ← Real.exp_add, ← Real.exp_add]
  congr 2
  ring

theorem terminalSpot_explicit_form (Expiry Spot : ℕ) (Return Vol r z : ℝ) :
    movedSpot Real.exp Expiry Spot Return Vol r
        * Real.exp (rootVariance Real.sqrt Vol Expiry * z)
      = (Spot : ℝ) * Real.exp ((Return + r) * (Expiry : ℝ) - 0.5 * Vol ^ 2 * (Expiry : ℝ)
          + Real.sqrt (Vol ^ 2 * (Expiry : ℝ)) * z) := by
  rw [movedSpot_real, rootVariance_real, mul_assoc, ← Real.exp_add]

theorem rootVariance_nonneg (Vol : ℝ) (Expiry : ℕ) :
    0 ≤ rootVariance Real.sqrt Vol Expiry :=
  Real.sqrt_nonneg _

theorem rootVariance_lt (Vol1 Vol2 : ℝ) (Expiry : ℕ) (hE : 1 ≤ Expiry) (h1 : 0 ≤ Vol1)
    (h12 : Vol1 < Vol2) :
    rootVariance Real.sqrt Vol1 Expiry < rootVariance Real.sqrt Vol2 Expiry := by
  have hT : (0 : ℝ) < (Expiry : ℝ) := by
    exact_mod_cast (by omega : 0 < Expiry)
  unfold rootVariance variance
  exact Real.sqrt_lt_sqrt (mul_nonneg (mul_self_nonneg Vol1) hT.le)
    (mul_lt_mul_of_pos_right (mul_self_lt_mul_self h1 h12) hT)

theorem payoff_forward_form (Call : Bool) (Expiry Strike Spot : ℕ) (Return Vol r z : ℝ) :
    clampedPayoff Call Strike
        (movedSpot Real.exp Expiry Spot Return Vol r
          * Real.exp (rootVariance Real.sqrt Vol Expiry * z))
      = if Call then
          max 0 (((Spot : ℝ) * Real.exp ((Return + r) * (Expiry : ℝ)))
            * Real.exp (rootVariance Real.sqrt Vol Expiry * z
                - rootVariance Real.sqrt Vol Expiry ^ 2 / 2) - (Strike : ℝ))
        else
          max 0 ((Strike : ℝ) - ((Spot : ℝ) * Real.exp ((Return + r) * (Expiry : ℝ)))
            * Real.exp (rootVariance Real.sqrt Vol Expiry * z
                - rootVariance Real.sqrt Vol Expiry ^ 2 / 2)) := by
  rw [clampedPayoff_eq_ref, terminalSpot_forward_form]
  rfl

theorem payoff_integrable (Call : Bool) (Expiry Strike Spot : ℕ) (Return Vol r : ℝ) :
    Integrable (fun z => clampedPayoff Call Strike
        (movedSpot Real.exp Expiry Spot Return Vol r
          * Real.exp (rootVariance Real.sqrt Vol Expiry * z))) (gaussianReal 0 1) := by
  simp only [payoff_forward_form]
  cases Call
  · simp only [Bool.false_eq_true, if_false]
    exact gaussian_integrable_put _ _ _
  · simp only [if_true]
    exact gaussian_integrable_call _ _ _

theorem expected_payoff_strict_mono (Call : Bool) (Expiry Strike Spot : ℕ)
    (Return r Vol1 Vol2 : ℝ) (hE : 1 ≤ Expiry) (hK : 0 < Strike) (hS : 0 < Spot)
    (h1 : 0 ≤ Vol1) (h12 : Vol1 < Vol2) :
    ∫ z, clampedPayoff Call Strike
        (movedSpot Real.exp Expiry Spot Return Vol1 r
          * Real.exp (rootVariance Real.sqrt Vol1 Expiry * z)) ∂(gaussianReal 0 1)
      < ∫ z, clampedPayoff Call Strike
        (movedSpot Real.exp Expiry Spot Return Vol2 r
          * Real.exp (rootVariance Real.sqrt Vol2 Expiry * z)) ∂(gaussianReal 0 1) := by
  have hF : (0 : ℝ) < (Spot : ℝ) * Real.exp ((Return + r) * (Expiry : ℝ)) :=
    mul_pos (by exact_mod_cast hS) (Real.exp_pos _)
  have hK0 : (0 : ℝ) < (Strike : ℝ) := by exact_mod_cast hK
  simp only [payoff_forward_form]
  cases Call
  · simp only [Bool.false_eq_true, if_false]
    exact put_value_strict_mono _ _ _ _ hF hK0 (rootVariance_nonneg Vol1 Expiry)
      (rootVariance_lt Vol1 Vol2 Expiry hE h1 h12)
  · simp only [if_true]
    exact call_value_strict_mono _ _ _ _ hF hK0 (rootVariance_nonneg Vol1 Expiry)
      (rootVariance_lt Vol1 Vol2 Expiry hE h1 h12)

theorem expected_estimate_eq {Ω : Type} [MeasurableSpace Ω] (P : Measure Ω)
    (Z : ℕ → Ω → ℝ) (hZm : ∀ i, Measurable (Z i))
    (hZ : ∀ i, P.map (Z i) = gaussianReal 0 1)
    (Call : Bool) (Expiry Strike Spot : ℕ) (Return Vol r : ℝ) (N pos : ℕ) (hN : 1 ≤ N) :
    ∫ ω, Real.exp (-r * (Expiry : ℝ)) * ((1 / (N : ℝ))
        * ∑ k in Finset.range N, clampedPayoff Call Strike
            (movedSpot Real.exp Expiry Spot Return Vol r
              * Real.exp (rootVariance Real.sqrt Vol Expiry * Z (pos + k) ω))) ∂P
      = Real.exp (-r * (Expiry : ℝ))
        * ∫ z, clampedPayoff Call Strike
            (movedSpot Real.exp Expiry Spot Return Vol r
              * Real.exp (rootVariance Real.sqrt Vol Expiry * z)) ∂(gaussianReal 0 1) := by
  have hN0 : (N : ℝ) ≠ 0 := by
    exact_mod_cast (by omega : N ≠ 0)
  have hint : ∀ i, Integrable (fun z => clampedPayoff Call Strike
      (movedSpot Real.exp Expiry Spot Return Vol r
        * Real.exp (rootVariance Real.sqrt Vol Expiry * z))) (P.map (Z i)) := by
    intro i
    rw [hZ i]
    exact payoff_integrable Call Expiry Strike Spot Return Vol r
  have hone : ∀ i, ∫ ω, clampedPayoff Call Strike
        (movedSpot Real.exp Expiry Spot Return Vol r
          * Real.exp (rootVariance Real.sqrt Vol Expiry * Z i ω)) ∂P
      = ∫ z, clampedPayoff Call Strike
        (movedSpot Real.exp Expiry Spot Return Vol r
          * Real.exp (rootVariance Real.sqrt Vol Expiry * z)) ∂(gaussianReal 0 1) := by
    intro i
    rw [← hZ i, integral_map (hZm i).aemeasurable (hint i).aestronglyMeasurable]
  have hcomp : ∀ i, Integrable (fun ω => clampedPayoff Call Strike
      (movedSpot Real.exp Expiry Spot Return Vol r
        * Real.exp (rootVariance Real.sqrt Vol Expiry * Z i ω))) P :=
    fun i => (integrable_map_measure (hint i).aestronglyMeasurable
      (hZm i).aemeasurable).mp (hint i)
  rw [integral_mul_left, integral_mul_left,
    integral_finset_sum _ fun k _ => hcomp (pos + k)]
  simp only [hone, Finset.sum_const, Finset.card_range, nsmul_eq_mul]
  rw [one_div, inv_mul_cancel_left₀ hN0]

end GaussianLemmas

/-! ## American mode for an expiry that fits an `int` -/

/-- American payoff rule while `Expiry` fits an `int`: for
`1 ≤ Expiry ≤ 2147483647` and every path `spot[0 .. Expiry - 1]` held by the
buffer, the payoff that lines 54-61 compute is the greatest of the terminal
payoff and the intrinsic values at the steps `0 .. Expiry - 2`, each discounted
by `exp(-r * (Expiry - j))`; and for `NumberOfPath ≥ 1` the American call
returns `exp(-r * Expiry)` times the mean of these payoffs over the generated
paths. -/
theorem american_payoff_rule_int_range (Call : Bool) (Expiry Strike Spot : ℕ) (Return Vol r : ℝ)
    (N : ℕ) (draws : ℕ → ℝ) (pos : ℕ) (spot : ℕ → ℝ) (hE : 1 ≤ Expiry)
    (hI : Expiry ≤ 2147483647) (hN : 1 ≤ N) :
    americanPayoff Real.exp Call Expiry Strike r ((List.range Expiry).map fun j => some (spot j))
        = some (americanPayoffRef Real.exp Call Expiry Strike r spot)
      ∧ IsGreatest
          (insert (europeanPayoffRef Call Strike (spot (Expiry - 1)))
            {c | ∃ j : ℕ, j + 2 ≤ Expiry ∧
              c = Real.exp (-r * ((Expiry : ℝ) - (j : ℝ))) * europeanPayoffRef Call Strike (spot j)})
          (americanPayoffRef Real.exp Call Expiry Strike r spot)
      ∧ SimpleMonteCarlo Real.exp Real.sqrt Call true Expiry Strike Spot Return Vol r N draws pos
        = Outcome.returned
            (Dbl.num (americanEstimateRef Real.exp Call Expiry Strike r
              (movedSpot Real.exp Expiry Spot Return Vol r) (rootVariance Real.sqrt Vol Expiry) N
              (fun i l => draws (pos + i * (Expiry - 1) + l))),
              pos + N * (Expiry - 1)) := by
  refine ⟨americanPayoff_spec Real.exp Call Expiry Strike r spot hE hI, ?_, ?_⟩
  · have hg := Finset.isGreatest_max' (exerciseCandidates Real.exp Call Expiry Strike r spot)
      (Finset.insert_nonempty _ _)
    have hset : ((exerciseCandidates Real.exp Call Expiry Strike r spot : Finset ℝ) : Set ℝ)
        = insert (europeanPayoffRef Call Strike (spot (Expiry - 1)))
            {c | ∃ j : ℕ, j + 2 ≤ Expiry ∧
              c = Real.exp (-r * ((Expiry : ℝ) - (j : ℝ)))
                * europeanPayoffRef Call Strike (spot j)} := by
      ext c
      simp only [exerciseCandidates, Finset.coe_insert, Finset.coe_image, Finset.coe_range,
        Set.mem_insert_iff, Set.mem_image, Set.mem_Iio, Set.mem_setOf_eq]
      constructor
      · rintro (h | ⟨j, hj, h⟩)
        · exact Or.inl h
        · exact Or.inr ⟨j, by omega, h.symm⟩
      · rintro (h | ⟨j, hj, h⟩)
        · exact Or.inl h
        · exact Or.inr ⟨j, by omega, h.symm⟩
    rw [← hset]
    exact hg
  · rw [SimpleMonteCarlo_american _ _ _ _ _ _ _ _ _ _ _ _ hE hI, discounted_meanOf _ _ _ _ _ hN]
    rfl

/-- American path construction while `Expiry` fits an `int`: for
`1 ≤ Expiry ≤ 2147483647`, lines 48-52 started at generator index `pos` take
`Expiry - 1` draws and leave a buffer of exactly `Expiry` written entries with
`spot[0] = movedSpot`, `spot[j] = spot[j - 1] * exp(rootVariance * z_j)` for `j`
in `1 .. Expiry - 1`, where `z_j` is the `j`-th draw of the path and
`rootVariance = sqrt(Vol^2 * Expiry)` at every step; hence
`spot[j] = movedSpot * exp(rootVariance * (z_1 + ... + z_j))`. -/
theorem american_path_construction_int_range (Expiry Spot : ℕ) (Return Vol r : ℝ)
    (draws : ℕ → ℝ) (pos : ℕ) (hE : 1 ≤ Expiry) (hI : Expiry ≤ 2147483647) :
    ∃ spotPath : List (Option ℝ),
      generatePath Real.exp (movedSpot Real.exp Expiry Spot Return Vol r)
          (rootVariance Real.sqrt Vol Expiry) draws Expiry pos
        = some (spotPath, pos + (Expiry - 1))
      ∧ spotPath.length = Expiry
      ∧ spotPath[0]? = some (some (movedSpot Real.exp Expiry Spot Return Vol r))
      ∧ (∀ j, 1 ≤ j → j < Expiry → ∃ previous : ℝ,
          spotPath[j - 1]? = some (some previous)
          ∧ spotPath[j]? = some (some
              (previous * Real.exp (Real.sqrt (Vol ^ 2 * (Expiry : ℝ)) * draws (pos + (j - 1))))))
      ∧ (∀ j, j < Expiry → spotPath[j]? = some (some
          (movedSpot Real.exp Expiry Spot Return Vol r
            * Real.exp (Real.sqrt (Vol ^ 2 * (Expiry : ℝ))
                * ∑ k in Finset.range j, draws (pos + k))))) := by
  have hget : ∀ j, j < Expiry →
      ((List.range Expiry).map fun j =>
        some (pathSpotRef Real.exp (movedSpot Real.exp Expiry Spot Return Vol r)
          (rootVariance Real.sqrt Vol Expiry) (fun k => draws (pos + k)) j))[j]?
      = some (some (pathSpotRef Real.exp (movedSpot Real.exp Expiry Spot Return Vol r)
          (rootVariance Real.sqrt Vol Expiry) (fun k => draws (pos + k)) j)) := by
    intro j hj
    rw [List.getElem?_map, List.getElem?_range hj]
    rfl
  refine ⟨_, generatePath_spec _ _ _ _ _ _ hE hI, by simp, ?_, ?_, ?_⟩
  · rw [hget 0 (by omega)]
    rfl
  · intro j h1 hj
    obtain ⟨m, rfl⟩ : ∃ m, j = m + 1 := ⟨j - 1, by omega⟩
    refine ⟨_, hget m (by omega), ?_⟩
    rw [hget (m + 1) hj, ← rootVariance_real]
    rfl
  · intro j hj
    rw [hget j hj, pathSpotRef_closed, rootVariance_real]

/-- Stream consumption while `Expiry` fits an `int`: a European pricing call
takes exactly `NumberOfPath` draws and an American call with
`1 ≤ Expiry ≤ 2147483647` exactly `NumberOfPath * (Expiry - 1)`, so the
generator is left at the draw right after the last one consumed, where the next
call starts; the draws are taken in stream order, path by path (European path
`i` takes the draw at `pos + i`, American path `i` the block starting at
`pos + i * (Expiry - 1)`); and the outcome depends on the stream only through
the draws consumed. -/
theorem stream_consumption_int_range (Call American : Bool) (Expiry Strike Spot : ℕ)
    (Return Vol r : ℝ) (N : ℕ) (draws : ℕ → ℝ) (pos : ℕ)
    (hE : American = true → 1 ≤ Expiry ∧ Expiry ≤ 2147483647) :
    (∃ v, SimpleMonteCarlo Real.exp Real.sqrt Call American Expiry Strike Spot Return Vol r
        N draws pos
        = Outcome.returned (v, pos + (if American then N * (Expiry - 1) else N)))
      ∧ (∀ draws1 : ℕ → ℝ,
          (∀ k, k < (if American then N * (Expiry - 1) else N) →
            draws1 (pos + k) = draws (pos + k)) →
          SimpleMonteCarlo Real.exp Real.sqrt Call American Expiry Strike Spot Return Vol r
              N draws1 pos
            = SimpleMonteCarlo Real.exp Real.sqrt Call American Expiry Strike Spot Return Vol r
              N draws pos)
      ∧ (American = false →
          SimpleMonteCarlo Real.exp Real.sqrt Call American Expiry Strike Spot Return Vol r
              N draws pos
            = Outcome.returned
                (discounted Real.exp r Expiry
                  (meanOf (∑ i in Finset.range N,
                    clampedPayoff Call Strike
                      (movedSpot Real.exp Expiry Spot Return Vol r
                        * Real.exp (rootVariance Real.sqrt Vol Expiry
                            * (random_nd draws (pos + i)).1))) N),
                  pos + N))
      ∧ (American = true →
          ∃ payoff : ℕ → ℝ,
            (∀ i, i < N → ∃ spotPath,
              generatePath Real.exp (movedSpot Real.exp Expiry Spot Return Vol r)
                  (rootVariance Real.sqrt Vol Expiry) draws Expiry (pos + i * (Expiry - 1))
                = some (spotPath, pos + (i + 1) * (Expiry - 1))
              ∧ americanPayoff Real.exp Call Expiry Strike r spotPath = some (payoff i))
            ∧ SimpleMonteCarlo Real.exp Real.sqrt Call American Expiry Strike Spot Return Vol r
                N draws pos
              = Outcome.returned
                  (discounted Real.exp r Expiry (meanOf (∑ i in Finset.range N, payoff i) N),
                    pos + N * (Expiry - 1))) := by
  have hfirst : ∃ v, SimpleMonteCarlo Real.exp Real.sqrt Call American Expiry Strike Spot
      Return Vol r N draws pos = Outcome.returned (v, pos + drawsTaken American Expiry N) := by
    cases American
    · exact ⟨_, SimpleMonteCarlo_european _ _ _ _ _ _ _ _ _ _ _ _⟩
    · exact ⟨_, SimpleMonteCarlo_american _ _ _ _ _ _ _ _ _ _ _ _ (hE rfl).1 (hE rfl).2⟩
  refine ⟨hfirst, ?_, ?_, ?_⟩
  · intro draws1 hsame
    obtain ⟨v, hv⟩ := hfirst
    rw [hv]
    exact ((SimpleMonteCarlo_transport Real.exp Real.sqrt Call American Expiry Strike Spot
      Return Vol r N draws draws1 pos pos hsame).1 v _ hv).2
  · intro hA
    subst hA
    exact SimpleMonteCarlo_european _ _ _ _ _ _ _ _ _ _ _ _
  · intro hA
    subst hA
    refine ⟨fun i => americanPayoffRef Real.exp Call Expiry Strike r
      (pathSpotRef Real.exp (movedSpot Real.exp Expiry Spot Return Vol r)
        (rootVariance Real.sqrt Vol Expiry) (fun l => draws (pos + i * (Expiry - 1) + l))),
      ?_, SimpleMonteCarlo_american _ _ _ _ _ _ _ _ _ _ _ _ (hE rfl).1 (hE rfl).2⟩
    intro i _
    refine ⟨_, ?_, americanPayoff_spec Real.exp Call Expiry Strike r _ (hE rfl).1 (hE rfl).2⟩
    rw [generatePath_spec _ _ _ _ _ _ (hE rfl).1 (hE rfl).2]
    have hidx : pos + i * (Expiry - 1) + (Expiry - 1) = pos + (i + 1) * (Expiry - 1) := by ring
    rw [hidx]

/-- Path-wise maximum while `Expiry` fits an `int`: with `r = 0`, for
`1 ≤ Expiry ≤ 2147483647` and every path held by the buffer, the American
per-path payoff is the greatest of the intrinsic values
`max(0, spot[j] - Strike)` (put: `max(0, Strike - spot[j])`) over all steps `j`
in `0 .. Expiry - 1`; and for `NumberOfPath ≥ 1` the American estimate is the
mean over the paths of this path-wise maximum. -/
theorem pathwise_maximum_int_range (Call : Bool) (Expiry Strike Spot : ℕ)
    (Return Vol : ℝ) (N : ℕ) (draws : ℕ → ℝ) (pos : ℕ) (spot : ℕ → ℝ)
    (hE : 1 ≤ Expiry) (hI : Expiry ≤ 2147483647) (hN : 1 ≤ N) :
    americanPayoff Real.exp Call Expiry Strike 0 ((List.range Expiry).map fun j => some (spot j))
        = some (americanPayoffRef Real.exp Call Expiry Strike 0 spot)
      ∧ IsGreatest {c | ∃ j : ℕ, j < Expiry ∧ c = europeanPayoffRef Call Strike (spot j)}
          (americanPayoffRef Real.exp Call Expiry Strike 0 spot)
      ∧ SimpleMonteCarlo Real.exp Real.sqrt Call true Expiry Strike Spot Return Vol 0 N draws pos
        = Outcome.returned
            (Dbl.num ((1 / (N : ℝ)) * ∑ i in Finset.range N,
              americanPayoffRef Real.exp Call Expiry Strike 0
                (pathSpotRef Real.exp (movedSpot Real.exp Expiry Spot Return Vol 0)
                  (rootVariance Real.sqrt Vol Expiry)
                  (fun l => draws (pos + i * (Expiry - 1) + l)))),
              pos + N * (Expiry - 1)) := by
  refine ⟨americanPayoff_spec Real.exp Call Expiry Strike 0 spot hE hI, ⟨?_, ?_⟩, ?_⟩
  · have hmem : americanPayoffRef Real.exp Call Expiry Strike 0 spot
        ∈ exerciseCandidates Real.exp Call Expiry Strike 0 spot :=
      Finset.max'_mem _ _
    generalize americanPayoffRef Real.exp Call Expiry Strike 0 spot = best at hmem ⊢
    simp only [exerciseCandidates, Finset.mem_insert, Finset.mem_image, Finset.mem_range,
      neg_zero, zero_mul, Real.exp_zero, one_mul] at hmem
    rcases hmem with h | ⟨j, hj, h⟩
    · exact ⟨Expiry - 1, by omega, h⟩
    · exact ⟨j, by omega, h.symm⟩
  · rintro c ⟨j, hj, rfl⟩
    apply Finset.le_max'
    simp only [exerciseCandidates, Finset.mem_insert, Finset.mem_image, Finset.mem_range,
      neg_zero, zero_mul, Real.exp_zero, one_mul]
    by_cases hlast : j = Expiry - 1
    · left
      rw [hlast]
    · right
      exact ⟨j, by omega, rfl⟩
  · rw [SimpleMonteCarlo_american _ _ _ _ _ _ _ _ _ _ _ _ hE hI, discounted_meanOf _ _ _ _ _ hN]
    simp only [neg_zero, zero_mul, Real.exp_zero, one_mul]

/-- American path buffer accesses while `Expiry` fits an `int`: for
`1 ≤ Expiry ≤ 2147483647` the path construction, the terminal payoff and the
backward scan run without a fault, that is, every access of `spotPath` is at an
index below the buffer length `Expiry` (an access of this buffer succeeds only
at such an index) and every entry read has been written before; the buffer ends
with all its `Expiry` entries written, and the American call never ends in
undefined behaviour, whatever the number of paths. -/
theorem american_buffer_in_bounds_int_range (Call : Bool) (Expiry Strike Spot : ℕ)
    (Return Vol r : ℝ) (N : ℕ) (draws : ℕ → ℝ) (pos : ℕ) (hE : 1 ≤ Expiry)
    (hI : Expiry ≤ 2147483647) :
    (∃ (spotPath : List (Option ℝ)) (thisPayoff : ℝ),
        generatePath Real.exp (movedSpot Real.exp Expiry Spot Return Vol r)
            (rootVariance Real.sqrt Vol Expiry) draws Expiry pos
          = some (spotPath, pos + (Expiry - 1))
        ∧ spotPath.length = Expiry
        ∧ (∀ j, j < Expiry → ∃ x, readAt spotPath j = some x)
        ∧ (∀ (i : ℕ) (x : ℝ), readAt spotPath i = some x → i < Expiry)
        ∧ (∀ (i : ℕ) (v : ℝ) (written : List (Option ℝ)),
            writeAt spotPath i v = some written → i < Expiry)
        ∧ americanPayoff Real.exp Call Expiry Strike r spotPath = some thisPayoff)
      ∧ (∃ result, SimpleMonteCarlo Real.exp Real.sqrt Call true Expiry Strike Spot Return Vol r
          N draws pos = Outcome.returned result)
      ∧ SimpleMonteCarlo Real.exp Real.sqrt Call true Expiry Strike Spot Return Vol r
          N draws pos ≠ Outcome.undefinedBehaviour := by
  refine ⟨⟨_, _, generatePath_spec _ _ _ _ _ _ hE hI, by simp, ?_, ?_, ?_,
    americanPayoff_spec Real.exp Call Expiry Strike r _ hE hI⟩, ?_, ?_⟩
  rotate_left
  · intro i x hread
    have hlt := readAt_some_lt hread
    simpa using hlt
  · intro i v written hwrite
    have hlt := writeAt_some_lt hwrite
    simpa using hlt
  rotate_right
  · intro j hj
    refine ⟨pathSpotRef Real.exp (movedSpot Real.exp Expiry Spot Return Vol r)
      (rootVariance Real.sqrt Vol Expiry) (fun k => draws (pos + k)) j,
      readAt_of_getElem? ?_⟩
    rw [List.getElem?_map, List.getElem?_range hj]
    rfl
  · exact ⟨_, SimpleMonteCarlo_american _ _ _ _ _ _ _ _ _ _ _ _ hE hI⟩
  · rw [SimpleMonteCarlo_american _ _ _ _ _ _ _ _ _ _ _ _ hE hI]
    exact fun h => Outcome.noConfusion h

/-! ## The claims -/

/-- C1. European estimate equals its reference definition: for every
parameter set, every `NumberOfPath = N ≥ 1` and every sequence of draws, the
European call of `SimpleMonteCarlo` returns
`exp(-r * Expiry) * (1 / N) * sum_i max(0, s_i - Strike)` (put:
`max(0, Strike - s_i)`), with `s_i = movedSpot * exp(rootVariance * z_i)`,
`z_i` the `i`-th draw taken from the generator. -/
theorem european_estimate_eq_reference (Call : Bool) (Expiry Strike Spot : ℕ)
    (Return Vol r : ℝ) (N : ℕ) (draws : ℕ → ℝ) (pos : ℕ) (hN : 1 ≤ N) :
    SimpleMonteCarlo Real.exp Real.sqrt Call false Expiry Strike Spot Return Vol r N draws pos
      = Outcome.returned
          (Dbl.num (europeanEstimateRef Real.exp Real.sqrt Call Expiry Strike Spot
            Return Vol r N (fun i => draws (pos + i))),
            pos + N) := by
  rw [SimpleMonteCarlo_european, discounted_meanOf _ _ _ _ _ hN]
  unfold europeanEstimateRef terminalSpotRef
  simp only [clampedPayoff_eq_ref, movedSpot_real, rootVariance_real, mul_assoc]

/-- Witness of C1: one path, the first scenario of the driver. -/
theorem european_estimate_eq_reference_witness :
    1 ≤ 1 ∧
    SimpleMonteCarlo Real.exp Real.sqrt true false 1 100 100 0 0.3 0 1 (fun _ => 0) 0
      = Outcome.returned
          (Dbl.num (europeanEstimateRef Real.exp Real.sqrt true 1 100 100 0 0.3 0 1
            (fun i => (fun _ => (0 : ℝ)) (0 + i))),
            0 + 1) :=
  ⟨le_refl 1, european_estimate_eq_reference true 1 100 100 0 0.3 0 1 (fun _ => 0) 0 (le_refl 1)⟩

/-- C2, evaluated on the second parity scenario of the driver (`Expiry = 10`,
`Strike = Spot = 100`, `Return = 0.005`, `r = 0.003`) with the volatility set
to zero, so that the estimate carries no sampling error: for every draw the
two sides `Call + Strike * exp(-r * Expiry)` and `Put + Spot` that the driver
prints as equal differ by `100 * (exp(0.05) - 1)`, more than `5`. -/
theorem parity_gap_with_nonzero_return (draws : ℕ → ℝ) (pos : ℕ) :
    ∃ call put : ℝ,
      SimpleMonteCarlo Real.exp Real.sqrt true false 10 100 100 0.005 0 0.003 1 draws pos
        = Outcome.returned (Dbl.num call, pos + 1)
      ∧ SimpleMonteCarlo Real.exp Real.sqrt false false 10 100 100 0.005 0 0.003 1 draws pos
        = Outcome.returned (Dbl.num put, pos + 1)
      ∧ (call + 100 * Real.exp (-0.003 * 10)) - (put + 100) = 100 * (Real.exp 0.05 - 1)
      ∧ 5 < (call + 100 * Real.exp (-0.003 * 10)) - (put + 100) := by
  have hfwd : (1 : ℝ) ≤ Real.exp ((0.005 + 0.003) * 10) := Real.one_le_exp (by norm_num)
  have hsplit : Real.exp (-0.003 * 10) * Real.exp ((0.005 + 0.003) * 10) = Real.exp 0.05 := by
    rw [← Real.exp_add]
    norm_num
  have hgrow : (0.05 : ℝ) + 1 < Real.exp 0.05 := Real.add_one_lt_exp (by norm_num)
  have hgap : (Real.exp (-0.003 * ((10 : ℕ) : ℝ))
        * europeanPayoffRef true 100 (((100 : ℕ) : ℝ) * Real.exp ((0.005 + 0.003) * ((10 : ℕ) : ℝ)))
        + 100 * Real.exp (-0.003 * 10))
      - (Real.exp (-0.003 * ((10 : ℕ) : ℝ))
        * europeanPayoffRef false 100
            (((100 : ℕ) : ℝ) * Real.exp ((0.005 + 0.003) * ((10 : ℕ) : ℝ))) + 100)
      = 100 * (Real.exp 0.05 - 1) := by
    unfold europeanPayoffRef
    simp only [if_true, Bool.false_eq_true, if_false, Nat.cast_ofNat]
    rw [max_eq_right (by linarith), max_eq_left (by linarith), mul_sub, ← mul_assoc,
      mul_comm (Real.exp (-0.003 * 10)) 100, mul_assoc, hsplit]
    ring
  refine ⟨_, _, european_zero_vol true 10 100 100 0.005 0.003 1 draws pos le_rfl,
    european_zero_vol false 10 100 100 0.005 0.003 1 draws pos le_rfl, hgap, ?_⟩
  rw [hgap]
  linarith

/-- C3. Zero-volatility boundary: with `Vol = 0`, for every `NumberOfPath ≥ 1`
and every sequence of draws, the European estimate is the discounted intrinsic
value of the deterministic forward `Spot * exp((Return + r) * Expiry)`, for the
call and for the put; the draws do not occur in it. -/
theorem zero_volatility_boundary (Expiry Strike Spot : ℕ) (Return r : ℝ) (N : ℕ)
    (draws : ℕ → ℝ) (pos : ℕ) (hN : 1 ≤ N) :
    SimpleMonteCarlo Real.exp Real.sqrt true false Expiry Strike Spot Return 0 r N draws pos
        = Outcome.returned
            (Dbl.num (Real.exp (-r * (Expiry : ℝ))
              * max 0 ((Spot : ℝ) * Real.exp ((Return + r) * (Expiry : ℝ)) - (Strike : ℝ))),
              pos + N)
      ∧ SimpleMonteCarlo Real.exp Real.sqrt false false Expiry Strike Spot Return 0 r N draws pos
        = Outcome.returned
            (Dbl.num (Real.exp (-r * (Expiry : ℝ))
              * max 0 ((Strike : ℝ) - (Spot : ℝ) * Real.exp ((Return + r) * (Expiry : ℝ)))),
              pos + N) :=
  ⟨european_zero_vol true Expiry Strike Spot Return r N draws pos hN,
    european_zero_vol false Expiry Strike Spot Return r N draws pos hN⟩

/-- Witness of C3: the first scenario of the driver with the volatility set to
zero and two paths. -/
theorem zero_volatility_boundary_witness :
    1 ≤ 2 ∧
    (SimpleMonteCarlo Real.exp Real.sqrt true false 1 100 100 0 0 0 2 (fun k => (k : ℝ)) 0
        = Outcome.returned
            (Dbl.num (Real.exp (-0 * ((1 : ℕ) : ℝ))
              * max 0 (((100 : ℕ) : ℝ) * Real.exp ((0 + 0) * ((1 : ℕ) : ℝ)) - ((100 : ℕ) : ℝ))),
              0 + 2)
      ∧ SimpleMonteCarlo Real.exp Real.sqrt false false 1 100 100 0 0 0 2 (fun k => (k : ℝ)) 0
        = Outcome.returned
            (Dbl.num (Real.exp (-0 * ((1 : ℕ) : ℝ))
              * max 0 (((100 : ℕ) : ℝ) - ((100 : ℕ) : ℝ) * Real.exp ((0 + 0) * ((1 : ℕ) : ℝ)))),
              0 + 2)) :=
  ⟨by decide, zero_volatility_boundary 1 100 100 0 0 2 (fun k => (k : ℝ)) 0 (by decide)⟩

/-- C4, evaluated at `Expiry = 2147483650`.  The initial value
`Expiry - 2 = 2147483648` of the `int` loop variable of line 57 is
`-2147483648`, so the backward scan does not run: on every fully written path
of `2147483650` entries lines 54-61 give the terminal payoff alone.  For the
call struck at `100` with `r = 0` on the path `200, 100, 100, ...` this is `0`,
while the greatest exercise value of the claim is at least `100`.  The American
call itself ends in undefined behaviour at this expiry, whatever the other
arguments and for every number of paths `N + 1`: line 48 asks for
`static_cast<int>(Expiry) = -2147483646` cells. -/
theorem american_payoff_rule_fails_past_int_range :
    toInt (sizeSub 2147483650 2) = -2147483648
      ∧ (∀ (Call : Bool) (Strike : ℕ) (r : ℝ) (spot : ℕ → ℝ),
          americanPayoff Real.exp Call 2147483650 Strike r
              ((List.range 2147483650).map fun j => some (spot j))
            = some (clampedPayoff Call Strike (spot 2147483649)))
      ∧ americanPayoff Real.exp true 2147483650 100 0
            ((List.range 2147483650).map fun j => some (if j = 0 then (200 : ℝ) else 100))
          = some 0
      ∧ 100 ≤ americanPayoffRef Real.exp true 2147483650 100 0
            (fun j => if j = 0 then (200 : ℝ) else 100)
      ∧ toInt 2147483650 = -2147483646
      ∧ ∀ (Call : Bool) (Strike Spot : ℕ) (Return Vol r : ℝ) (N : ℕ) (draws : ℕ → ℝ)
          (pos : ℕ),
          SimpleMonteCarlo Real.exp Real.sqrt Call true 2147483650 Strike Spot Return Vol r
              (N + 1) draws pos
            = Outcome.undefinedBehaviour := by
  refine ⟨?_, ?_, ?_, ?_, ?_, ?_⟩
  · unfold toInt sizeSub
    split_ifs <;> omega
  · intro Call Strike r spot
    exact americanPayoff_scan_skipped Real.exp Call 2147483650 Strike r spot
      (by norm_num) (by norm_num)
  · rw [americanPayoff_scan_skipped Real.exp true 2147483650 100 0 _
      (by norm_num) (by norm_num)]
    unfold clampedPayoff
    norm_num
  · apply Finset.le_max'
    unfold exerciseCandidates
    simp only [Finset.mem_insert, Finset.mem_image, Finset.mem_range]
    right
    refine ⟨0, by norm_num, ?_⟩
    unfold europeanPayoffRef
    norm_num
  · unfold toInt
    split_ifs <;> omega
  · intro Call Strike Spot Return Vol r N draws pos
    exact SimpleMonteCarlo_american_fault Real.exp Real.sqrt Call 2147483650 Strike Spot
      Return Vol r (N + 1) draws pos (by omega) (Or.inr (by norm_num))

/-- C5, evaluated past the range of `int`.  For every `Expiry` above
`2147483647` (written `2147483648 + n`) lines 48-52 do not produce a path: the
construction ends in undefined behaviour.  At `Expiry = 4294967297` the buffer
of line 48 has `static_cast<int>(Expiry) = 1` cell, not `Expiry` entries; after
`spotPath[0] = movedSpot` the first pass of the loop of lines 50-52 writes
`spotPath[1]`, outside the buffer. -/
theorem american_path_construction_fails_past_int_range :
    (∀ (n : ℕ) (moved rootVar : ℝ) (draws : ℕ → ℝ) (pos : ℕ),
        generatePath Real.exp moved rootVar draws (2147483648 + n) pos = none)
      ∧ toInt 4294967297 = 1
      ∧ (∀ moved : ℝ,
          writeAt (List.replicate (toInt 4294967297).toNat none) 0 moved = some [some moved])
      ∧ ∀ (moved rootVar : ℝ) (draws : ℕ → ℝ) (pos : ℕ),
          writeAt [some moved] 1 (moved * Real.exp (rootVar * (random_nd draws pos).1)) = none
          ∧ pathLoop Real.exp rootVar draws 4294967297 1 [some moved] pos = none := by
  have hcells : toInt 4294967297 = 1 := by
    unfold toInt
    split_ifs <;> omega
  refine ⟨?_, hcells, ?_, ?_⟩
  · intro n moved rootVar draws pos
    exact generatePath_fault Real.exp moved rootVar draws (2147483648 + n) pos
      (Or.inr (by omega))
  · intro moved
    rw [hcells]
    rfl
  · intro moved rootVar draws pos
    refine ⟨rfl, ?_⟩
    exact pathLoop_fault Real.exp rootVar draws 4294967297 0 1 [some moved] pos rfl le_rfl
      (by
        show 1 < 4294967297
        norm_num)

/-- C6. Itô correction: for a standard normal variate `Z` the expected value
of the European terminal spot `movedSpot * exp(rootVariance * Z)` is
`Spot * exp((Return + r) * Expiry)`; equivalently
`movedSpot * exp(variance / 2) = Spot * exp((Return + r) * Expiry)`. -/
theorem ito_correction (Expiry Spot : ℕ) (Return Vol r : ℝ) :
    (∫ z, movedSpot Real.exp Expiry Spot Return Vol r
          * Real.exp (rootVariance Real.sqrt Vol Expiry * z)
        ∂(ProbabilityTheory.gaussianReal 0 1))
        = (Spot : ℝ) * Real.exp ((Return + r) * (Expiry : ℝ))
      ∧ movedSpot Real.exp Expiry Spot Return Vol r * Real.exp (variance Vol Expiry / 2)
        = (Spot : ℝ) * Real.exp ((Return + r) * (Expiry : ℝ)) := by
  have halg : movedSpot Real.exp Expiry Spot Return Vol r * Real.exp (variance Vol Expiry / 2)
      = (Spot : ℝ) * Real.exp ((Return + r) * (Expiry : ℝ)) := by
    unfold movedSpot itoCorrelation
    rw [mul_assoc, ← Real.exp_add]
    congr 2
    ring
  refine ⟨?_, halg⟩
  rw [MeasureTheory.integral_mul_left, gaussian_exp_mean, rootVariance_sq]
  exact halg

/-- C7, counterexample: the first scenario of the driver with
`NumberOfPath = 0` is not rejected; the call returns not-a-number. -/
theorem zero_path_count_not_rejected :
    SimpleMonteCarlo Real.exp Real.sqrt true false 1 100 100 0 0.3 0 0 (fun _ => 0) 0
        ≠ Outcome.thrown
      ∧ SimpleMonteCarlo Real.exp Real.sqrt true false 1 100 100 0 0.3 0 0 (fun _ => 0) 0
        = Outcome.returned (Dbl.nan, 0) :=
  ⟨SimpleMonteCarlo_ne_thrown _ _ _ _ _ _ _ _ _ _ _ _ _,
    SimpleMonteCarlo_zero_paths _ _ _ _ _ _ _ _ _ _ _ _⟩

/-- C7, amended. For every contract variant and every other parameter, a
pricing call with `NumberOfPath = 0` is not rejected: it takes no draw from the
generator and returns the not-a-number of `0.0 / 0`. -/
theorem zero_path_count_returns_nan (Call American : Bool) (Expiry Strike Spot : ℕ)
    (Return Vol r : ℝ) (draws : ℕ → ℝ) (pos : ℕ) :
    SimpleMonteCarlo Real.exp Real.sqrt Call American Expiry Strike Spot Return Vol r 0 draws pos
      = Outcome.returned (Dbl.nan, pos) :=
  SimpleMonteCarlo_zero_paths _ _ _ _ _ _ _ _ _ _ _ _

/-- C8, counterexample: a European call with `Expiry = 0`, `Strike = 90`,
`Spot = 100` and one path is not rejected; it returns the price `10`. -/
theorem zero_expiry_not_rejected :
    SimpleMonteCarlo Real.exp Real.sqrt true false 0 90 100 0 0.3 0 1 (fun _ => 0) 0
        ≠ Outcome.thrown
      ∧ SimpleMonteCarlo Real.exp Real.sqrt true false 0 90 100 0 0.3 0 1 (fun _ => 0) 0
        = Outcome.returned (Dbl.num 10, 1) := by
  refine ⟨SimpleMonteCarlo_ne_thrown _ _ _ _ _ _ _ _ _ _ _ _ _, ?_⟩
  rw [european_expiry_zero true 90 100 0 0.3 0 1 (fun _ => 0) 0 le_rfl]
  norm_num [europeanPayoffRef]

/-- C8, amended. A pricing call with `Expiry = 0` is never rejected: no
contract variant raises an error, and for `NumberOfPath ≥ 1` the European call
returns the intrinsic value `max(0, Spot - Strike)` (put:
`max(0, Strike - Spot)`) as its price. -/
theorem zero_expiry_european_returns_intrinsic (Call American : Bool) (Strike Spot : ℕ)
    (Return Vol r : ℝ) (N : ℕ) (draws : ℕ → ℝ) (pos : ℕ) (hN : 1 ≤ N) :
    SimpleMonteCarlo Real.exp Real.sqrt Call American 0 Strike Spot Return Vol r N draws pos
        ≠ Outcome.thrown
      ∧ SimpleMonteCarlo Real.exp Real.sqrt Call false 0 Strike Spot Return Vol r N draws pos
        = Outcome.returned
            (Dbl.num (if Call then max 0 ((Spot : ℝ) - (Strike : ℝ))
              else max 0 ((Strike : ℝ) - (Spot : ℝ))), pos + N) :=
  ⟨SimpleMonteCarlo_ne_thrown _ _ _ _ _ _ _ _ _ _ _ _ _,
    european_expiry_zero Call Strike Spot Return Vol r N draws pos hN⟩

/-- Witness of the amended C8: an American put with `Expiry = 0` and three
paths. -/
theorem zero_expiry_european_returns_intrinsic_witness :
    1 ≤ 3 ∧
    (SimpleMonteCarlo Real.exp Real.sqrt false true 0 100 90 0 0.3 0 3 (fun _ => 0) 0
        ≠ Outcome.thrown
      ∧ SimpleMonteCarlo Real.exp Real.sqrt false false 0 100 90 0 0.3 0 3 (fun _ => 0) 0
        = Outcome.returned
            (Dbl.num (if false then max 0 (((90 : ℕ) : ℝ) - ((100 : ℕ) : ℝ))
              else max 0 (((100 : ℕ) : ℝ) - ((90 : ℕ) : ℝ))), 0 + 3)) :=
  ⟨by decide,
    zero_expiry_european_returns_intrinsic false true 100 90 0 0.3 0 3 (fun _ => 0) 0 (by decide)⟩

/-- C9, counterexample: the European call of the first scenario of the driver
(`Expiry = 1`, `Strike = Spot = 100`, `Return = 0`, `Vol = 0.3`, `r = 0`) with one
path, made twice in succession on a stream that starts with
`1.1227949407889193, 0.3028052237074139`, the first two values that
`std::mt19937` seeded with `0` and `std::normal_distribution` hand out under
libstdc++.  The first call takes the first draw, the second call the second
draw, and the second price is smaller than the first. -/
theorem successive_calls_differ :
    ∃ first second : ℝ,
      SimpleMonteCarlo Real.exp Real.sqrt true false 1 100 100 0 0.3 0 1
          (fun k => if k = 0 then 1.1227949407889193 else 0.3028052237074139) 0
        = Outcome.returned (Dbl.num first, 1)
      ∧ SimpleMonteCarlo Real.exp Real.sqrt true false 1 100 100 0 0.3 0 1
          (fun k => if k = 0 then 1.1227949407889193 else 0.3028052237074139) 1
        = Outcome.returned (Dbl.num second, 2)
      ∧ second < first := by
  refine ⟨_, _, european_driver_path _ 0, european_driver_path _ 1, ?_⟩
  simp only [if_true, one_ne_zero, if_false]
  have hsecond : Real.exp (0.3 * 0.3028052237074139 - 0.045)
      < Real.exp (0.3 * 1.1227949407889193 - 0.045) :=
    Real.exp_lt_exp.mpr (by norm_num)
  have hmoney : (1 : ℝ) < Real.exp (0.3 * 1.1227949407889193 - 0.045) :=
    Real.one_lt_exp_iff.mpr (by norm_num)
  exact lt_of_lt_of_le (max_lt (by linarith) (by linarith)) (le_max_right _ _)

/-- C9, amended. The second of two successive calls with identical parameters
(in American mode with `1 ≤ Expiry ≤ 2147483647`) does not restart the stream:
the first call returns with the generator advanced by the number of draws it
took, the second call starts there, takes as many draws and returns; its result
is the result that the same call returns on any stream that carries these draws
at the positions of the first call, and therefore the two results are identical
whenever the draws of the second call repeat those of the first. -/
theorem second_call_continues_stream (Call American : Bool) (Expiry Strike Spot : ℕ)
    (Return Vol r : ℝ) (N : ℕ) (draws : ℕ → ℝ) (pos : ℕ)
    (hfit : American = true → 1 ≤ Expiry ∧ Expiry ≤ 2147483647) :
    ∃ first second : Dbl ℝ,
      SimpleMonteCarlo Real.exp Real.sqrt Call American Expiry Strike Spot Return Vol r
          N draws pos
        = Outcome.returned (first, pos + drawsTaken American Expiry N)
      ∧ SimpleMonteCarlo Real.exp Real.sqrt Call American Expiry Strike Spot Return Vol r
          N draws (pos + drawsTaken American Expiry N)
        = Outcome.returned
            (second, pos + drawsTaken American Expiry N + drawsTaken American Expiry N)
      ∧ (∀ other : ℕ → ℝ,
          (∀ k, k < drawsTaken American Expiry N →
            other (pos + k) = draws (pos + drawsTaken American Expiry N + k)) →
          SimpleMonteCarlo Real.exp Real.sqrt Call American Expiry Strike Spot Return Vol r
              N other pos
            = Outcome.returned (second, pos + drawsTaken American Expiry N))
      ∧ ((∀ k, k < drawsTaken American Expiry N →
            draws (pos + drawsTaken American Expiry N + k) = draws (pos + k)) →
          second = first) := by
  obtain ⟨first, hfirst⟩ := SimpleMonteCarlo_returned Real.exp Real.sqrt Call American
    Expiry Strike Spot Return Vol r N draws pos hfit
  obtain ⟨second, hsecond⟩ := SimpleMonteCarlo_returned Real.exp Real.sqrt Call American
    Expiry Strike Spot Return Vol r N draws (pos + drawsTaken American Expiry N) hfit
  refine ⟨first, second, hfirst, hsecond, ?_, ?_⟩
  · intro other hother
    exact ((SimpleMonteCarlo_transport Real.exp Real.sqrt Call American Expiry Strike Spot
      Return Vol r N draws other (pos + drawsTaken American Expiry N) pos hother).1
      second _ hsecond).2
  · intro hrepeat
    have hagain := ((SimpleMonteCarlo_transport Real.exp Real.sqrt Call American Expiry
      Strike Spot Return Vol r N draws draws pos (pos + drawsTaken American Expiry N)
      hrepeat).1 first _ hfirst).2
    rw [hsecond] at hagain
    simp only [Outcome.returned.injEq, Prod.mk.injEq] at hagain
    exact hagain.1

/-- Witness of the amended C9: an American put over three periods with two
paths on a stream that starts with the first four values of the seed-0
generator.  The first call takes the draws `0 .. 3`, the second call starts at
draw `4` and takes the draws `4 .. 7`, and its result is the result of the same
call made at the start of the stream shifted by four draws. -/
theorem second_call_continues_stream_witness :
    (true = true → 1 ≤ 3 ∧ 3 ≤ 2147483647)
    ∧ ∃ first second : Dbl ℝ,
      SimpleMonteCarlo Real.exp Real.sqrt false true 3 100 100 0 0.3 0 2
          (fun k => if k = 0 then 1.1227949407889193 else if k = 1 then 0.3028052237074139
            else if k = 2 then 0.07085923768221188 else 0.07304140205379003) 0
        = Outcome.returned (first, 0 + drawsTaken true 3 2)
      ∧ SimpleMonteCarlo Real.exp Real.sqrt false true 3 100 100 0 0.3 0 2
          (fun k => if k = 0 then 1.1227949407889193 else if k = 1 then 0.3028052237074139
            else if k = 2 then 0.07085923768221188 else 0.07304140205379003)
          (0 + drawsTaken true 3 2)
        = Outcome.returned (second, 0 + drawsTaken true 3 2 + drawsTaken true 3 2)
      ∧ SimpleMonteCarlo Real.exp Real.sqrt false true 3 100 100 0 0.3 0 2
          (fun j => (fun k : ℕ => if k = 0 then (1.1227949407889193 : ℝ)
            else if k = 1 then 0.3028052237074139
            else if k = 2 then 0.07085923768221188 else 0.07304140205379003) (j + 4)) 0
        = Outcome.returned (second, 0 + drawsTaken true 3 2) :=
  ⟨fun _ => ⟨by norm_num, by norm_num⟩,
    (second_call_continues_stream false true 3 100 100 0 0.3 0 2
      (fun k => if k = 0 then 1.1227949407889193 else if k = 1 then 0.3028052237074139
        else if k = 2 then 0.07085923768221188 else 0.07304140205379003) 0
      (fun _ => ⟨by norm_num, by norm_num⟩)).imp fun _ h =>
        h.imp fun _ h2 => ⟨h2.1, h2.2.1, h2.2.2.1 _ (fun k _ => by
          have hshift : 0 + k + 4 = 0 + drawsTaken true 3 2 + k := by
            simp only [drawsTaken, if_true]
            omega
          simp only [hshift])⟩⟩

/-- C10, evaluated in American mode at `Expiry = 4294967297` (`2^32 + 1`),
any other arguments and any number of paths `N + 1`.  The claim has the call
return after `(N + 1) * (Expiry - 1)` draws, with the generator left there for
the next call; the code, whose path buffer has `static_cast<int>(Expiry) = 1`
cell, runs into undefined behaviour in the first pass of the path loop of its
first path, at the write of `spotPath[1]`, and returns nothing. -/
theorem stream_consumption_fails_past_int_range (Call : Bool) (Strike Spot : ℕ)
    (Return Vol r : ℝ) (N : ℕ) (draws : ℕ → ℝ) (pos : ℕ) :
    SimpleMonteCarlo Real.exp Real.sqrt Call true 4294967297 Strike Spot Return Vol r
        (N + 1) draws pos
      = Outcome.undefinedBehaviour
    ∧ ∀ v : Dbl ℝ,
        SimpleMonteCarlo Real.exp Real.sqrt Call true 4294967297 Strike Spot Return Vol r
            (N + 1) draws pos
          ≠ Outcome.returned (v, pos + (N + 1) * (4294967297 - 1)) := by
  have hfault := SimpleMonteCarlo_american_fault Real.exp Real.sqrt Call 4294967297 Strike
    Spot Return Vol r (N + 1) draws pos (by omega) (Or.inr (by norm_num))
  refine ⟨hfault, fun v hv => ?_⟩
  rw [hfault] at hv
  exact Outcome.noConfusion hv

/-- C11. Volatility monotonicity in expectation: for `Expiry ≥ 1`,
`Strike > 0`, `Spot > 0`, any real `Return` and `r`, and `0 ≤ Vol1 < Vol2`, with
`S(Vol, Z) = Spot * exp((Return + r) * Expiry - 0.5 * Vol^2 * Expiry
+ sqrt(Vol^2 * Expiry) * Z)` and `Z` standard normal,
`E[max(0, S(Vol1, Z) - Strike)] < E[max(0, S(Vol2, Z) - Strike)]` and
`E[max(0, Strike - S(Vol1, Z))] < E[max(0, Strike - S(Vol2, Z))]`; and for
every `NumberOfPath ≥ 1` and draws `Z 0, Z 1, ...` that are standard normal
random variables (independent or not), the expected value of the European
estimate that `SimpleMonteCarlo` returns is strictly larger at `Vol2` than at
`Vol1`, for the call and for the put. -/
theorem volatility_monotone_in_expectation {Ω : Type} [MeasurableSpace Ω]
    (P : MeasureTheory.Measure Ω) (Z : ℕ → Ω → ℝ) (Call : Bool) (Expiry Strike Spot : ℕ)
    (Return r Vol1 Vol2 : ℝ) (N pos : ℕ)
    (hZm : ∀ i, Measurable (Z i))
    (hZ : ∀ i, P.map (Z i) = ProbabilityTheory.gaussianReal 0 1)
    (hE : 1 ≤ Expiry) (hK : 0 < Strike) (hS : 0 < Spot)
    (h1 : 0 ≤ Vol1) (h12 : Vol1 < Vol2) (hN : 1 ≤ N) :
    (∫ z, max 0 ((Spot : ℝ) * Real.exp ((Return + r) * (Expiry : ℝ)
            - 0.5 * Vol1 ^ 2 * (Expiry : ℝ) + Real.sqrt (Vol1 ^ 2 * (Expiry : ℝ)) * z)
          - (Strike : ℝ)) ∂(ProbabilityTheory.gaussianReal 0 1)
        < ∫ z, max 0 ((Spot : ℝ) * Real.exp ((Return + r) * (Expiry : ℝ)
            - 0.5 * Vol2 ^ 2 * (Expiry : ℝ) + Real.sqrt (Vol2 ^ 2 * (Expiry : ℝ)) * z)
          - (Strike : ℝ)) ∂(ProbabilityTheory.gaussianReal 0 1))
      ∧ (∫ z, max 0 ((Strike : ℝ) - (Spot : ℝ) * Real.exp ((Return + r) * (Expiry : ℝ)
            - 0.5 * Vol1 ^ 2 * (Expiry : ℝ) + Real.sqrt (Vol1 ^ 2 * (Expiry : ℝ)) * z))
          ∂(ProbabilityTheory.gaussianReal 0 1)
        < ∫ z, max 0 ((Strike : ℝ) - (Spot : ℝ) * Real.exp ((Return + r) * (Expiry : ℝ)
            - 0.5 * Vol2 ^ 2 * (Expiry : ℝ) + Real.sqrt (Vol2 ^ 2 * (Expiry : ℝ)) * z))
          ∂(ProbabilityTheory.gaussianReal 0 1))
      ∧ ∃ estimate1 estimate2 : Ω → ℝ,
          (∀ ω, SimpleMonteCarlo Real.exp Real.sqrt Call false Expiry Strike Spot Return Vol1 r
              N (fun i => Z i ω) pos = Outcome.returned (Dbl.num (estimate1 ω), pos + N))
          ∧ (∀ ω, SimpleMonteCarlo Real.exp Real.sqrt Call false Expiry Strike Spot Return Vol2 r
              N (fun i => Z i ω) pos = Outcome.returned (Dbl.num (estimate2 ω), pos + N))
          ∧ ∫ ω, estimate1 ω ∂P < ∫ ω, estimate2 ω ∂P := by
  refine ⟨?_, ?_, ?_⟩
  · have h := expected_payoff_strict_mono true Expiry Strike Spot Return r Vol1 Vol2
      hE hK hS h1 h12
    simp only [clampedPayoff_eq_ref, terminalSpot_explicit_form, europeanPayoffRef,
      if_true] at h
    exact h
  · have h := expected_payoff_strict_mono false Expiry Strike Spot Return r Vol1 Vol2
      hE hK hS h1 h12
    simp only [clampedPayoff_eq_ref, terminalSpot_explicit_form, europeanPayoffRef,
      Bool.false_eq_true, if_false] at h
    exact h
  · refine ⟨fun ω => Real.exp (-r * (Expiry : ℝ)) * ((1 / (N : ℝ))
        * ∑ k in Finset.range N, clampedPayoff Call Strike
            (movedSpot Real.exp Expiry Spot Return Vol1 r
              * Real.exp (rootVariance Real.sqrt Vol1 Expiry * Z (pos + k) ω))),
      fun ω => Real.exp (-r * (Expiry : ℝ)) * ((1 / (N : ℝ))
        * ∑ k in Finset.range N, clampedPayoff Call Strike
            (movedSpot Real.exp Expiry Spot Return Vol2 r
              * Real.exp (rootVariance Real.sqrt Vol2 Expiry * Z (pos + k) ω))),
      fun ω => ?_, fun ω => ?_, ?_⟩
    · rw [SimpleMonteCarlo_european, discounted_meanOf _ _ _ _ _ hN]
    · rw [SimpleMonteCarlo_european, discounted_meanOf _ _ _ _ _ hN]
    · rw [expected_estimate_eq P Z hZm hZ Call Expiry Strike Spot Return Vol1 r N pos hN,
        expected_estimate_eq P Z hZm hZ Call Expiry Strike Spot Return Vol2 r N pos hN]
      exact mul_lt_mul_of_pos_left
        (expected_payoff_strict_mono Call Expiry Strike Spot Return r Vol1 Vol2
          hE hK hS h1 h12) (Real.exp_pos _)

/-- Witness of C11: the first scenario of the driver at the volatilities `0.2`
and `0.3`, every draw being the identity on the real line under the standard
normal law. -/
theorem volatility_monotone_in_expectation_witness :
    ((∀ i : ℕ, Measurable ((fun _ => id : ℕ → ℝ → ℝ) i))
      ∧ (∀ i : ℕ, (ProbabilityTheory.gaussianReal 0 1).map ((fun _ => id : ℕ → ℝ → ℝ) i)
          = ProbabilityTheory.gaussianReal 0 1)
      ∧ 1 ≤ 1 ∧ 0 < 100 ∧ 0 < 100 ∧ (0 : ℝ) ≤ 0.2 ∧ (0.2 : ℝ) < 0.3 ∧ 1 ≤ 1)
    ∧ (∫ z, max 0 (((100 : ℕ) : ℝ) * Real.exp ((0 + 0) * ((1 : ℕ) : ℝ)
            - 0.5 * 0.2 ^ 2 * ((1 : ℕ) : ℝ) + Real.sqrt (0.2 ^ 2 * ((1 : ℕ) : ℝ)) * z)
          - ((100 : ℕ) : ℝ)) ∂(ProbabilityTheory.gaussianReal 0 1)
        < ∫ z, max 0 (((100 : ℕ) : ℝ) * Real.exp ((0 + 0) * ((1 : ℕ) : ℝ)
            - 0.5 * 0.3 ^ 2 * ((1 : ℕ) : ℝ) + Real.sqrt (0.3 ^ 2 * ((1 : ℕ) : ℝ)) * z)
          - ((100 : ℕ) : ℝ)) ∂(ProbabilityTheory.gaussianReal 0 1)) :=
  ⟨⟨fun _ => measurable_id, fun _ => MeasureTheory.Measure.map_id, le_refl 1, by decide,
      by decide, by norm_num, by norm_num, le_refl 1⟩,
    (volatility_monotone_in_expectation (ProbabilityTheory.gaussianReal 0 1) (fun _ => id)
      true 1 100 100 0 0 0.2 0.3 1 0 (fun _ => measurable_id)
      (fun _ => MeasureTheory.Measure.map_id) (le_refl 1) (by decide) (by decide)
      (by norm_num) (by norm_num) (le_refl 1)).1⟩

/-- C12. Path order is irrelevant: for every parameter set, every
`NumberOfPath = N` and every permutation `σ` of the `N` paths, the pricer run
on the permuted draws (European: draw `i` replaced by draw `σ i`; American: the
block of `Expiry - 1` draws of path `i` replaced by the block of path `σ i`)
gives the same outcome as on the original draws, in exact arithmetic. -/
theorem path_order_irrelevant (Call : Bool) (Expiry Strike Spot : ℕ) (Return Vol r : ℝ)
    (N : ℕ) (draws permuted : ℕ → ℝ) (pos : ℕ) (σ : Equiv.Perm (Fin N)) :
    ((∀ i : Fin N, permuted (pos + (i : ℕ)) = draws (pos + ((σ i : Fin N) : ℕ))) →
        SimpleMonteCarlo Real.exp Real.sqrt Call false Expiry Strike Spot Return Vol r
            N permuted pos
          = SimpleMonteCarlo Real.exp Real.sqrt Call false Expiry Strike Spot Return Vol r
            N draws pos)
      ∧ ((∀ (i : Fin N) (l : ℕ), l < Expiry - 1 →
          permuted (pos + (i : ℕ) * (Expiry - 1) + l)
            = draws (pos + ((σ i : Fin N) : ℕ) * (Expiry - 1) + l)) →
        SimpleMonteCarlo Real.exp Real.sqrt Call true Expiry Strike Spot Return Vol r
            N permuted pos
          = SimpleMonteCarlo Real.exp Real.sqrt Call true Expiry Strike Spot Return Vol r
            N draws pos) :=
  ⟨SimpleMonteCarlo_perm_european Real.exp Real.sqrt Call Expiry Strike Spot Return Vol r
      N draws permuted pos σ,
    SimpleMonteCarlo_perm_american Real.exp Real.sqrt Call Expiry Strike Spot Return Vol r
      N draws permuted pos σ⟩

/-- Witness of C12: two European paths with the draws `0, 1` swapped. -/
theorem path_order_irrelevant_witness :
    (∀ i : Fin 2, (fun k : ℕ => if k = 0 then (1 : ℝ) else if k = 1 then 0 else (k : ℝ))
          (0 + (i : ℕ))
        = (fun k : ℕ => (k : ℝ)) (0 + ((Equiv.swap (0 : Fin 2) 1 i : Fin 2) : ℕ)))
    ∧ SimpleMonteCarlo Real.exp Real.sqrt true false 1 100 100 0 0.3 0 2
          (fun k : ℕ => if k = 0 then (1 : ℝ) else if k = 1 then 0 else (k : ℝ)) 0
        = SimpleMonteCarlo Real.exp Real.sqrt true false 1 100 100 0 0.3 0 2
          (fun k : ℕ => (k : ℝ)) 0 :=
  have hswap : ∀ i : Fin 2,
      (fun k : ℕ => if k = 0 then (1 : ℝ) else if k = 1 then 0 else (k : ℝ)) (0 + (i : ℕ))
        = (fun k : ℕ => (k : ℝ)) (0 + ((Equiv.swap (0 : Fin 2) 1 i : Fin 2) : ℕ)) := by
    intro i
    fin_cases i <;> simp
  ⟨hswap, (path_order_irrelevant true 1 100 100 0 0.3 0 2 (fun k : ℕ => (k : ℝ))
    (fun k : ℕ => if k = 0 then (1 : ℝ) else if k = 1 then 0 else (k : ℝ)) 0
    (Equiv.swap (0 : Fin 2) 1)).1 hswap⟩

/-- C13, evaluated at `Expiry = 4294967296` (`2^32`) with `r = 0`.  The initial
value `Expiry - 2 = 4294967294` of the `int` loop variable of line 57 is `-2`,
so the backward scan does not run: for the put struck at `100` on the path
`50, 100, 100, ...` lines 54-61 give the terminal payoff `0`, while the
greatest intrinsic value over the steps of the path is `50`.  The American call
itself ends in undefined behaviour at this expiry for every number of paths
`N + 1`: the buffer of line 48 has `static_cast<int>(Expiry) = 0` cells. -/
theorem pathwise_maximum_fails_past_int_range :
    toInt (sizeSub 4294967296 2) = -2
      ∧ americanPayoff Real.exp false 4294967296 100 0
            ((List.range 4294967296).map fun j => some (if j = 0 then (50 : ℝ) else 100))
          = some 0
      ∧ IsGreatest
          {c | ∃ j : ℕ, j < 4294967296
            ∧ c = europeanPayoffRef false 100 (if j = 0 then (50 : ℝ) else 100)}
          50
      ∧ toInt 4294967296 = 0
      ∧ ∀ (Call : Bool) (Strike Spot : ℕ) (Return Vol : ℝ) (N : ℕ) (draws : ℕ → ℝ)
          (pos : ℕ),
          SimpleMonteCarlo Real.exp Real.sqrt Call true 4294967296 Strike Spot Return Vol 0
              (N + 1) draws pos
            = Outcome.undefinedBehaviour := by
  refine ⟨?_, ?_, ⟨?_, ?_⟩, ?_, ?_⟩
  · unfold toInt sizeSub
    split_ifs <;> omega
  · rw [americanPayoff_scan_skipped Real.exp false 4294967296 100 0 _
      (by norm_num) (by norm_num)]
    unfold clampedPayoff
    norm_num
  · refine ⟨0, by norm_num, ?_⟩
    unfold europeanPayoffRef
    norm_num
  · rintro c ⟨j, _, rfl⟩
    unfold europeanPayoffRef
    by_cases hj : j = 0
    · simp only [hj, if_true, Bool.false_eq_true, if_false]
      norm_num
    · simp only [hj, if_false, Bool.false_eq_true]
      norm_num
  · unfold toInt
    split_ifs <;> omega
  · intro Call Strike Spot Return Vol N draws pos
    exact SimpleMonteCarlo_american_fault Real.exp Real.sqrt Call 4294967296 Strike Spot
      Return Vol 0 (N + 1) draws pos (by omega) (Or.inr (by norm_num))

/-- C14, evaluated past the range of `int`.  For every `Expiry` above
`2147483647` (written `2147483648 + n`), any other arguments and any number of
paths `N + 1`, the American call ends in undefined behaviour.  The buffer of
line 48 has `static_cast<int>(Expiry)` cells: at `Expiry = 2147483648` this
size is negative; at `Expiry = 4294967296` it is `0`, and the write of
`spotPath[0]` on line 49 is outside the buffer; at `Expiry = 4294967297` it is
`1`, the write of `spotPath[0]` succeeds and the write of `spotPath[1]` on line
51 is outside the buffer. -/
theorem american_buffer_out_of_bounds_past_int_range :
    (∀ (n : ℕ) (Call : Bool) (Strike Spot : ℕ) (Return Vol r : ℝ) (N : ℕ) (draws : ℕ → ℝ)
        (pos : ℕ),
        SimpleMonteCarlo Real.exp Real.sqrt Call true (2147483648 + n) Strike Spot Return Vol r
            (N + 1) draws pos
          = Outcome.undefinedBehaviour)
      ∧ toInt 2147483648 = -2147483648
      ∧ ((toInt 4294967296).toNat = 0
          ∧ ∀ moved : ℝ, writeAt (List.replicate (toInt 4294967296).toNat none) 0 moved = none)
      ∧ ((toInt 4294967297).toNat = 1
          ∧ ∀ moved next : ℝ,
              writeAt (List.replicate (toInt 4294967297).toNat none) 0 moved
                = some [some moved]
              ∧ readAt [some moved] 0 = some moved
              ∧ writeAt [some moved] 1 next = none) := by
  have hzero : toInt 4294967296 = 0 := by
    unfold toInt
    split_ifs <;> omega
  have hone : toInt 4294967297 = 1 := by
    unfold toInt
    split_ifs <;> omega
  refine ⟨?_, ?_, ⟨?_, ?_⟩, ⟨?_, ?_⟩⟩
  · intro n Call Strike Spot Return Vol r N draws pos
    exact SimpleMonteCarlo_american_fault Real.exp Real.sqrt Call (2147483648 + n) Strike
      Spot Return Vol r (N + 1) draws pos (by omega) (Or.inr (by omega))
  · unfold toInt
    split_ifs <;> omega
  · rw [hzero]
    rfl
  · intro moved
    rw [hzero]
    rfl
  · rw [hone]
    rfl
  · intro moved next
    rw [hone]
    exact ⟨rfl, rfl, rfl⟩

/-- C15. Sample-wise put-call identity: for every parameter set, every
`NumberOfPath = N ≥ 1` and the same draws used for both calls, the European call
estimate minus the European put estimate is
`exp(-r * Expiry) * ((1 / N) * sum_i s_i - Strike)` with
`s_i = movedSpot * exp(rootVariance * z_i)`, that is,
`Call + Strike * exp(-r * Expiry) = Put + exp(-r * Expiry) * mean_i s_i`. -/
theorem samplewise_put_call_identity (Expiry Strike Spot : ℕ) (Return Vol r : ℝ)
    (N : ℕ) (draws : ℕ → ℝ) (pos : ℕ) (hN : 1 ≤ N) :
    ∃ call put : ℝ,
      SimpleMonteCarlo Real.exp Real.sqrt true false Expiry Strike Spot Return Vol r N draws pos
        = Outcome.returned (Dbl.num call, pos + N)
      ∧ SimpleMonteCarlo Real.exp Real.sqrt false false Expiry Strike Spot Return Vol r N draws pos
        = Outcome.returned (Dbl.num put, pos + N)
      ∧ call - put = Real.exp (-r * (Expiry : ℝ))
          * ((1 / (N : ℝ)) * (∑ i in Finset.range N,
              movedSpot Real.exp Expiry Spot Return Vol r
                * Real.exp (rootVariance Real.sqrt Vol Expiry * draws (pos + i)))
            - (Strike : ℝ))
      ∧ call + (Strike : ℝ) * Real.exp (-r * (Expiry : ℝ))
        = put + Real.exp (-r * (Expiry : ℝ))
          * ((1 / (N : ℝ)) * ∑ i in Finset.range N,
              movedSpot Real.exp Expiry Spot Return Vol r
                * Real.exp (rootVariance Real.sqrt Vol Expiry * draws (pos + i))) := by
  have hN0 : (N : ℝ) ≠ 0 := by
    exact_mod_cast (by omega : N ≠ 0)
  have hdiff : (∑ i in Finset.range N, clampedPayoff true Strike
          (movedSpot Real.exp Expiry Spot Return Vol r
            * Real.exp (rootVariance Real.sqrt Vol Expiry * draws (pos + i))))
        - (∑ i in Finset.range N, clampedPayoff false Strike
          (movedSpot Real.exp Expiry Spot Return Vol r
            * Real.exp (rootVariance Real.sqrt Vol Expiry * draws (pos + i))))
      = (∑ i in Finset.range N, movedSpot Real.exp Expiry Spot Return Vol r
            * Real.exp (rootVariance Real.sqrt Vol Expiry * draws (pos + i)))
        - (N : ℝ) * (Strike : ℝ) := by
    rw [← Finset.sum_sub_distrib]
    simp only [clampedPayoff_call_sub_put, Finset.sum_sub_distrib, Finset.sum_const,
      Finset.card_range, nsmul_eq_mul]
  have hgap : Real.exp (-r * (Expiry : ℝ)) * ((1 / (N : ℝ))
        * ∑ i in Finset.range N, clampedPayoff true Strike
          (movedSpot Real.exp Expiry Spot Return Vol r
            * Real.exp (rootVariance Real.sqrt Vol Expiry * draws (pos + i))))
      - Real.exp (-r * (Expiry : ℝ)) * ((1 / (N : ℝ))
        * ∑ i in Finset.range N, clampedPayoff false Strike
          (movedSpot Real.exp Expiry Spot Return Vol r
            * Real.exp (rootVariance Real.sqrt Vol Expiry * draws (pos + i))))
      = Real.exp (-r * (Expiry : ℝ))
          * ((1 / (N : ℝ)) * (∑ i in Finset.range N,
              movedSpot Real.exp Expiry Spot Return Vol r
                * Real.exp (rootVariance Real.sqrt Vol Expiry * draws (pos + i)))
            - (Strike : ℝ)) := by
    rw [← mul_sub, ← mul_sub, hdiff, mul_sub, one_div, inv_mul_cancel_left₀ hN0]
  refine ⟨_, _, ?_, ?_, hgap, ?_⟩
  · rw [SimpleMonteCarlo_european, discounted_meanOf _ _ _ _ _ hN]
  · rw [SimpleMonteCarlo_european, discounted_meanOf _ _ _ _ _ hN]
  · linear_combination hgap

/-- Witness of C15: the first scenario of the driver with three paths. -/
theorem samplewise_put_call_identity_witness :
    1 ≤ 3
    ∧ ∃ call put : ℝ,
      SimpleMonteCarlo Real.exp Real.sqrt true false 1 100 100 0 0.3 0 3 (fun k => (k : ℝ)) 0
        = Outcome.returned (Dbl.num call, 0 + 3)
      ∧ SimpleMonteCarlo Real.exp Real.sqrt false false 1 100 100 0 0.3 0 3 (fun k => (k : ℝ)) 0
        = Outcome.returned (Dbl.num put, 0 + 3)
      ∧ call - put = Real.exp (-0 * ((1 : ℕ) : ℝ))
          * ((1 / ((3 : ℕ) : ℝ)) * (∑ i in Finset.range 3,
              movedSpot Real.exp 1 100 0 0.3 0
                * Real.exp (rootVariance Real.sqrt 0.3 1 * (fun k : ℕ => (k : ℝ)) (0 + i)))
            - ((100 : ℕ) : ℝ))
      ∧ call + ((100 : ℕ) : ℝ) * Real.exp (-0 * ((1 : ℕ) : ℝ))
        = put + Real.exp (-0 * ((1 : ℕ) : ℝ))
          * ((1 / ((3 : ℕ) : ℝ)) * ∑ i in Finset.range 3,
              movedSpot Real.exp 1 100 0 0.3 0
                * Real.exp (rootVariance Real.sqrt 0.3 1 * (fun k : ℕ => (k : ℝ)) (0 + i))) :=
  ⟨by decide,
    samplewise_put_call_identity 1 100 100 0 0.3 0 3 (fun k => (k : ℝ)) 0 (by decide)⟩

/-- C16. American mode with `Expiry = 1` is deterministic: for every
`Strike`, `Spot`, `Return`, `Vol`, `r` and `NumberOfPath ≥ 1` the path
construction takes no draw, the backward scan runs zero times, and the call
returns `exp(-r) * max(0, movedSpot - Strike)` (put:
`exp(-r) * max(0, Strike - movedSpot)`) with
`movedSpot = Spot * exp(Return + r - 0.5 * Vol^2)`, whatever the draws, leaving
the generator where it was; the European call for the same parameters can
return a different price. -/
theorem american_single_period (Call : Bool) (Strike Spot : ℕ) (Return Vol r : ℝ) (N : ℕ)
    (draws : ℕ → ℝ) (pos : ℕ) (hN : 1 ≤ N) :
    generatePath Real.exp (movedSpot Real.exp 1 Spot Return Vol r)
          (rootVariance Real.sqrt Vol 1) draws 1 pos
        = some ([some (movedSpot Real.exp 1 Spot Return Vol r)], pos)
      ∧ (∀ (spotPath : List (Option ℝ)) (thisPayoff : ℝ),
          exerciseLoop Real.exp Call 1 Strike r spotPath (((1 : ℕ) : ℤ) - 2) thisPayoff
            = some thisPayoff)
      ∧ SimpleMonteCarlo Real.exp Real.sqrt Call true 1 Strike Spot Return Vol r N draws pos
        = Outcome.returned
            (Dbl.num (Real.exp (-r)
              * (if Call then
                  max 0 ((Spot : ℝ) * Real.exp (Return + r - 0.5 * Vol ^ 2) - (Strike : ℝ))
                else
                  max 0 ((Strike : ℝ) - (Spot : ℝ) * Real.exp (Return + r - 0.5 * Vol ^ 2)))),
              pos)
      ∧ ∃ (stream : ℕ → ℝ) (american european : ℝ),
          SimpleMonteCarlo Real.exp Real.sqrt true true 1 0 1 0 1 0 1 stream 0
            = Outcome.returned (Dbl.num american, 0)
          ∧ SimpleMonteCarlo Real.exp Real.sqrt true false 1 0 1 0 1 0 1 stream 0
            = Outcome.returned (Dbl.num european, 1)
          ∧ american ≠ european := by
  refine ⟨?_, ?_, american_expiry_one Call Strike Spot Return Vol r N draws pos hN, ?_⟩
  · rw [generatePath_spec _ _ _ _ _ _ le_rfl (by norm_num)]
    rfl
  · intro spotPath thisPayoff
    rw [exerciseLoop, if_neg (by norm_num)]
  · refine ⟨fun _ => 1, _, _, american_expiry_one true 0 1 0 1 0 1 (fun _ => 1) 0 le_rfl,
      european_unit_path (fun _ => 1) 0, ?_⟩
    have hpos : (0 : ℝ) ≤ Real.exp (0 + 0 - 0.5 * 1 ^ 2) := (Real.exp_pos _).le
    simp only [europeanPayoffRef, if_true, Nat.cast_zero, Nat.cast_one, one_mul, sub_zero,
      neg_zero, Real.exp_zero, max_eq_right hpos]
    intro h
    have := Real.exp_injective h
    norm_num at this

/-- Witness of C16: an American put with `Expiry = 1` and five paths. -/
theorem american_single_period_witness :
    1 ≤ 5
    ∧ SimpleMonteCarlo Real.exp Real.sqrt false true 1 100 90 0 0.3 0 5 (fun k => (k : ℝ)) 7
        = Outcome.returned
            (Dbl.num (Real.exp (-0)
              * (if false = true then
                  max 0 (((90 : ℕ) : ℝ) * Real.exp (0 + 0 - 0.5 * 0.3 ^ 2) - ((100 : ℕ) : ℝ))
                else
                  max 0 (((100 : ℕ) : ℝ) - ((90 : ℕ) : ℝ) * Real.exp (0 + 0 - 0.5 * 0.3 ^ 2)))),
              7) :=
  ⟨by decide,
    (american_single_period false 100 90 0 0.3 0 5 (fun k => (k : ℝ)) 7 (by decide)).2.2.1⟩

/-- C18. The estimate depends on the volatility only through its square: for
every parameter set, every contract variant, every draws and every real `v`,
the pricer called with `Vol = -v` gives the same outcome as called with
`Vol = v` on the same draws; a negative volatility is not rejected. -/
theorem volatility_sign_irrelevant (Call American : Bool) (Expiry Strike Spot : ℕ)
    (Return v r : ℝ) (N : ℕ) (draws : ℕ → ℝ) (pos : ℕ) :
    SimpleMonteCarlo Real.exp Real.sqrt Call American Expiry Strike Spot Return (-v) r
          N draws pos
        = SimpleMonteCarlo Real.exp Real.sqrt Call American Expiry Strike Spot Return v r
          N draws pos
      ∧ SimpleMonteCarlo Real.exp Real.sqrt Call American Expiry Strike Spot Return (-v) r
          N draws pos ≠ Outcome.thrown :=
  ⟨SimpleMonteCarlo_neg_vol _ _ _ _ _ _ _ _ _ _ _ _ _,
    SimpleMonteCarlo_ne_thrown _ _ _ _ _ _ _ _ _ _ _ _ _⟩

end DerivativesPricing
